import Mathlib

/-!
# Peg Solitaire: verification of the board model and solvers

Shallow embedding of the Peg Solitaire repository (files `pegdc.py`,
`dacandsorting.py`, `Pegsolitaire5.py`, `main.py`): board topology
construction, game state with move application and undo, the greedy
move chooser of the matrix-based GUI, the region-shrinking divide and
conquer solver with its in-place quicksort helper, and the exhaustive
bitboard solver.
-/

namespace PegSolitaire

/-! ## Board topology (`BoardGraph`)

`_build_board_layout` chooses one of two fixed string layouts by the
`version` string (any string other than `"english"` takes the `else`
branch, which builds the european layout), then enumerates the `'X'`
cells row-major; the id of a hole is its position in that enumeration.
-/

def englishLayout : List String :=
  ["  XXX ", "  XXX ", "XXXXXXX", "XXXXXXX", "XXXXXXX", "  XXX ", "  XXX "]

def europeanLayout : List String :=
  ["  XXX ", " XXXXX ", "XXXXXXX", "XXXXXXX", "XXXXXXX", " XXXXX ", "  XXX "]

def boardLayout (version : String) : List String :=
  if version = "english" then englishLayout else europeanLayout

/-- The `(r, c)` coordinates of the `'X'` cells, in row-major order;
the index of a coordinate in this list is the hole's id. -/
def layoutNodes (layout : List String) : List (Int × Int) :=
  layout.enum.flatMap (fun p =>
    p.2.toList.enum.filterMap (fun q =>
      if q.2 = 'X' then some ((p.1 : Int), (q.1 : Int)) else none))

/-- `node_to_id`: id of a coordinate, i.e. its index in the node list. -/
def nodeToId (nodes : List (Int × Int)) (coord : Int × Int) : Option Nat :=
  nodes.findIdx? (fun p => p = coord)

def directions : List (Int × Int) := [(-1, 0), (1, 0), (0, -1), (0, 1)]

/-- `_precompute_jumps`: for every hole and every direction, record the
triple (start id, mid id, end id) when stepping one and two cells both
land on holes. -/
def mkValidJumps (nodes : List (Int × Int)) : List (Nat × Nat × Nat) :=
  nodes.enum.flatMap (fun p =>
    directions.filterMap (fun d =>
      match nodeToId nodes (p.2.1 + d.1, p.2.2 + d.2),
            nodeToId nodes (p.2.1 + 2 * d.1, p.2.2 + 2 * d.2) with
      | some midId, some endId => some (p.1, midId, endId)
      | _, _ => none))

structure Graph where
  nodes : List (Int × Int)
  validJumps : List (Nat × Nat × Nat)
deriving Repr, DecidableEq

def buildGraph (version : String) : Graph :=
  let ns := layoutNodes (boardLayout version)
  { nodes := ns, validJumps := mkValidJumps ns }

def englishGraph : Graph := buildGraph "english"
def europeanGraph : Graph := buildGraph "european"

/-! ## Game state (`GameState`)

`pegs` is the occupancy list (1 = peg, 0 = empty), `history` the undo
stack of prior occupancies, most recent first.
-/

structure GameState where
  pegs : List Nat
  history : List (List Nat)
deriving Repr, DecidableEq

/-- Occupancy lookup.  An index out of the list's range yields the
sentinel 2, which satisfies neither the `= 1` nor the `= 0` occupancy
test (well-formed graphs never index out of range). -/
def pegAt (pegs : List Nat) (i : Nat) : Nat :=
  pegs.getD i 2

/-- `get_legal_moves` over a raw occupancy list. -/
def legalMovesPegs (g : Graph) (pegs : List Nat) : List (Nat × Nat × Nat) :=
  g.validJumps.filter (fun t =>
    pegAt pegs t.1 = 1 ∧ pegAt pegs t.2.1 = 1 ∧ pegAt pegs t.2.2 = 0)

def getLegalMoves (g : Graph) (st : GameState) : List (Nat × Nat × Nat) :=
  legalMovesPegs g st.pegs

/-- The occupancy update of a move: start and mid cleared, end set. -/
def applyMovePegs (pegs : List Nat) (mv : Nat × Nat × Nat) : List Nat :=
  ((pegs.set mv.1 0).set mv.2.1 0).set mv.2.2 1

/-- `execute_move`: unconditionally pushes the current occupancy onto
the history and applies the move; no legality check is performed. -/
def executeMove (st : GameState) (mv : Nat × Nat × Nat) : GameState :=
  { pegs := applyMovePegs st.pegs mv, history := st.pegs :: st.history }

/-- `undo`: pops the history if non-empty, reporting whether it did. -/
def undo (st : GameState) : GameState × Bool :=
  match st.history with
  | [] => (st, false)
  | prev :: rest => ({ pegs := prev, history := rest }, true)

def pegCountL (pegs : List Nat) : Nat := pegs.sum

def initialState (g : Graph) : GameState :=
  let pegs := List.replicate g.nodes.length 1
  { pegs :=
      match nodeToId g.nodes (3, 3) with
      | some cid => pegs.set cid 0
      | none => pegs,
    history := [] }

/-- Well-formedness of the precomputed jump list: the three holes of a
triple are pairwise distinct and are valid node ids. -/
def JumpsWF (g : Graph) : Prop :=
  ∀ t ∈ g.validJumps, t.1 ≠ t.2.1 ∧ t.1 ≠ t.2.2 ∧ t.2.1 ≠ t.2.2 ∧
    t.1 < g.nodes.length ∧ t.2.1 < g.nodes.length ∧ t.2.2 < g.nodes.length

instance (g : Graph) : Decidable (JumpsWF g) := by
  unfold JumpsWF; infer_instance

/-! ## Stable sorting

Python's `list.sort` / `sorted` are stable; with `reverse=True` the
comparison is flipped but elements with equal keys still keep their
original relative order.  Insertion sorts with the matching strict
insertion conditions realize both.
-/

def insertDescBy {α β : Type} [LinearOrder β] (key : α → β) (x : α) :
    List α → List α
  | [] => [x]
  | y :: ys => if key y ≤ key x then x :: y :: ys else y :: insertDescBy key x ys

/-- Stable descending sort by key (`list.sort(key=..., reverse=True)`). -/
def sortDescBy {α β : Type} [LinearOrder β] (key : α → β) : List α → List α
  | [] => []
  | x :: xs => insertDescBy key x (sortDescBy key xs)

def insertAscBy {α β : Type} [LinearOrder β] (key : α → β) (x : α) :
    List α → List α
  | [] => [x]
  | y :: ys => if key x ≤ key y then x :: y :: ys else y :: insertAscBy key x ys

/-- Stable ascending sort by key (`sorted(..., key=...)`). -/
def sortAscBy {α β : Type} [LinearOrder β] (key : α → β) : List α → List α
  | [] => []
  | x :: xs => insertAscBy key x (sortAscBy key xs)

/-- First element of a list attaining the maximal key (earlier elements
win ties); the head of a stable descending sort. -/
def firstMaxBy {α β : Type} [LinearOrder β] (key : α → β) : List α → Option α
  | [] => none
  | x :: xs =>
    match firstMaxBy key xs with
    | none => some x
    | some h => if key h ≤ key x then some x else some h

/-! ## In-place quicksort (`quicksort` of `dacandsorting.py`)

The Python helper sorts `arr` in place with a Lomuto partition; the
embedding threads the list through the index-level operations.  The
recursion of `_quicksort` is driven by a fuel argument; a fuel of
`arr.length` always suffices because each level strictly shrinks the
segment.  `i` of the Python loop is tracked as `ip = i + 1` so that it
stays a natural number (`i` starts at `low - 1`).
-/

/-- `arr[i], arr[j] = arr[j], arr[i]`. -/
def listSwap {α : Type} [Inhabited α] (l : List α) (i j : Nat) : List α :=
  (l.set i (l.getD j default)).set j (l.getD i default)

/-- The `for j in range(low, high)` loop of `_partition`, with
`steps = high - j` iterations left. -/
def partitionLoop {α : Type} [Inhabited α] (key : α → Nat) (pivot : Nat) :
    Nat → Nat → Nat → List α → Nat × List α
  | 0, _, ip, arr => (ip, arr)
  | steps + 1, j, ip, arr =>
    if key (arr.getD j default) ≤ pivot then
      partitionLoop key pivot steps (j + 1) (ip + 1) (listSwap arr ip j)
    else
      partitionLoop key pivot steps (j + 1) ip arr

/-- `_partition(low, high)`: pivot is `key(arr[high])`; returns the
pivot's final position and the rearranged list. -/
def partition {α : Type} [Inhabited α] (key : α → Nat) (arr : List α)
    (low high : Nat) : Nat × List α :=
  let pivot := key (arr.getD high default)
  let r := partitionLoop key pivot (high - low) low low arr
  (r.1, listSwap r.2 r.1 high)

/-- `_quicksort(low, high)` with explicit fuel. -/
def quicksortAux {α : Type} [Inhabited α] (key : α → Nat) :
    Nat → List α → Nat → Nat → List α
  | 0, arr, _, _ => arr
  | fuel + 1, arr, low, high =>
    if low < high then
      let r := partition key arr low high
      let arr2 := quicksortAux key fuel r.2 low (r.1 - 1)
      quicksortAux key fuel arr2 (r.1 + 1) high
    else arr

/-- `quicksort(arr, key)`. -/
def quicksort {α : Type} [Inhabited α] (key : α → Nat) (arr : List α) :
    List α :=
  quicksortAux key arr.length arr 0 (arr.length - 1)

/-! ## Matrix board model (`main.py`)

`PegSolitaireGUI` keeps the board as a 7×7 matrix with entries
-1 (off-board), 0 (empty hole), 1 (peg).
-/

/-- A 7×7 matrix of -1/0/1 entries. -/
abbrev MBoard := List (List Int)

/-- `board[r][c]`.  Out-of-range reads yield the off-board value -1,
which satisfies neither the `= 0` nor the `= 1` occupancy test (the
modelled code paths never index out of range). -/
def cell (bd : MBoard) (r c : Nat) : Int :=
  (bd.getD r []).getD c (-1)

def setCell (bd : MBoard) (r c : Nat) (v : Int) : MBoard :=
  bd.set r ((bd.getD r []).set c v)

/-- `try_move`: checks destination empty, geometry (a straight jump of
two), and a peg in the middle; only then mutates the three cells. -/
def tryMove (bd : MBoard) (src dest : Nat × Nat) : MBoard × Bool :=
  let r := src.1; let c := src.2
  let nr := dest.1; let nc := dest.2
  if cell bd nr nc ≠ 0 then (bd, false)
  else
    let dr : Int := (nr : Int) - (r : Int)
    let dc : Int := (nc : Int) - (c : Int)
    if (dr.natAbs = 2 ∧ dc = 0) ∨ (dc.natAbs = 2 ∧ dr = 0) then
      let mr := (r + nr) / 2
      let mc := (c + nc) / 2
      if cell bd mr mc = 1 then
        (setCell (setCell (setCell bd r c 0) mr mc 0) nr nc 1, true)
      else (bd, false)
    else (bd, false)

def mainDirections : List (Int × Int) := [(2, 0), (-2, 0), (0, 2), (0, -2)]

/-- `get_valid_moves`: scan the 7×7 grid row-major; for each peg try
the four jump offsets in order, keeping in-bounds jumps onto an empty
hole over a peg.  A move is `(r, c, nr, nc)`. -/
def getValidMoves (bd : MBoard) : List (Nat × Nat × Nat × Nat) :=
  (List.range 7).flatMap (fun r =>
    (List.range 7).flatMap (fun c =>
      if cell bd r c = 1 then
        mainDirections.filterMap (fun d =>
          let nri : Int := (r : Int) + d.1
          let nci : Int := (c : Int) + d.2
          if 0 ≤ nri ∧ nri < 7 ∧ 0 ≤ nci ∧ nci < 7 then
            let nr := nri.toNat
            let nc := nci.toNat
            if cell bd nr nc = 0 ∧ cell bd ((r + nr) / 2) ((c + nc) / 2) = 1 then
              some (r, c, nr, nc)
            else none
          else none)
      else []))

/-- `heuristic(pos)`: Manhattan distance from the center (3, 3). -/
def heuristic (p : Nat × Nat) : Nat :=
  ((p.1 : Int) - 3).natAbs + ((p.2 : Int) - 3).natAbs

/-- The sort key of `get_greedy_move`: the heuristic of the move's
START square `(m[0], m[1])`. -/
def moveKey (m : Nat × Nat × Nat × Nat) : Nat :=
  heuristic (m.1, m.2.1)

/-- `get_greedy_move`: None when no valid move; otherwise stable-sort
the valid moves by the start-square heuristic, descending, and return
the first. -/
def getGreedyMove (bd : MBoard) : Option (Nat × Nat × Nat × Nat) :=
  let moves := getValidMoves bd
  if moves.isEmpty then none
  else (sortDescBy moveKey moves).head?

/-- Number of pegs on the matrix board (`sum(row.count(1))`). -/
def countPegsM (bd : MBoard) : Nat :=
  (bd.map (fun row => row.count 1)).sum

/-- Modelled from the spec (claim C2): the score the claim attributes
to the greedy evaluator — simulate the move on a scratch copy, then
10 × (number of valid moves in the resulting state), plus 5 when the
landing hole lies in the central 3×3 sub-grid (rows 2–4, columns 2–4).
This definition follows the claim's words; the code has no such score. -/
def claimGreedyScore (bd : MBoard) (m : Nat × Nat × Nat × Nat) : Nat :=
  let bd2 := setCell (setCell (setCell bd m.1 m.2.1 0)
      ((m.1 + m.2.2.1) / 2) ((m.2.1 + m.2.2.2) / 2) 0) m.2.2.1 m.2.2.2 1
  10 * (getValidMoves bd2).length +
    (if 2 ≤ m.2.2.1 ∧ m.2.2.1 ≤ 4 ∧ 2 ≤ m.2.2.2 ∧ m.2.2.2 ≤ 4 then 5 else 0)

/-! ## Region-shrinking divide and conquer solver
(`RegionShrinkingDCSolver` of `dacandsorting.py` / `Pegsolitaire5.py`)

The two priority-greedy `while changed` loops of the solver
(`_solve_small_region_priority` and
`_execute_cross_boundary_moves_priority`) share one shape: collect
candidate `(priority, move)` pairs, quicksort by priority, reverse,
execute the first candidate, repeat.  `priorityLoop` captures that
shape, driven by a fuel argument; with a well-formed graph each
executed move removes a peg, so a fuel of `pegCountL pegs + 1` always
outlasts the loop.
-/

/-- Manhattan distance of a node from the board center (3, 3), read
off the graph's coordinate table. -/
def distFromCenter (g : Graph) (i : Nat) : Nat :=
  ((g.nodes.getD i (0, 0)).1 - 3).natAbs + ((g.nodes.getD i (0, 0)).2 - 3).natAbs

/-- `_get_move_priority`: 10 × (distance of the removed mid peg) +
(distance of the start peg). -/
def getMovePriority (g : Graph) (mv : Nat × Nat × Nat) : Nat :=
  distFromCenter g mv.2.1 * 10 + distFromCenter g mv.1

/-- The legal candidate moves of `_solve_small_region_priority`:
jump triples lying entirely inside the region, paired with their
priority, in `valid_jumps` order. -/
def smallRegionCandidates (g : Graph) (region : List Nat)
    (pegs : List Nat) : List (Nat × (Nat × Nat × Nat)) :=
  g.validJumps.filterMap (fun t =>
    if t.1 ∈ region ∧ t.2.1 ∈ region ∧ t.2.2 ∈ region then
      if pegAt pegs t.1 = 1 ∧ pegAt pegs t.2.1 = 1 ∧ pegAt pegs t.2.2 = 0 then
        some (getMovePriority g t, t)
      else none
    else none)

/-- The legal candidate moves of
`_execute_cross_boundary_moves_priority`: jump triples inside the
union of the halves that touch both halves. -/
def crossBoundaryCandidates (g : Graph) (left right : List Nat)
    (pegs : List Nat) : List (Nat × (Nat × Nat × Nat)) :=
  g.validJumps.filterMap (fun t =>
    if (t.1 ∈ left ∨ t.1 ∈ right) ∧ (t.2.1 ∈ left ∨ t.2.1 ∈ right) ∧
        (t.2.2 ∈ left ∨ t.2.2 ∈ right) then
      if (t.1 ∈ left ∨ t.2.1 ∈ left ∨ t.2.2 ∈ left) ∧
          (t.1 ∈ right ∨ t.2.1 ∈ right ∨ t.2.2 ∈ right) then
        if pegAt pegs t.1 = 1 ∧ pegAt pegs t.2.1 = 1 ∧ pegAt pegs t.2.2 = 0
        then some (getMovePriority g t, t)
        else none
      else none
    else none)

/-- One `while changed` priority loop: sort the candidates by priority
with `quicksort`, reverse for descending order, execute the first
candidate, and repeat until no candidate remains.  Returns the moves
executed and the final occupancy. -/
def priorityLoop (cand : List Nat → List (Nat × (Nat × Nat × Nat))) :
    Nat → List Nat → List (Nat × Nat × Nat) × List Nat
  | 0, pegs => ([], pegs)
  | fuel + 1, pegs =>
    match ((quicksort (fun x => x.1) (cand pegs)).reverse).head? with
    | none => ([], pegs)
    | some best =>
      let r := priorityLoop cand fuel (applyMovePegs pegs best.2)
      (best.2 :: r.1, r.2)

/-- `_solve_small_region_priority`. -/
def solveSmallRegionPriority (g : Graph) (region : List Nat)
    (pegs : List Nat) : List (Nat × Nat × Nat) × List Nat :=
  priorityLoop (smallRegionCandidates g region) (pegCountL pegs + 1) pegs

/-- `_execute_cross_boundary_moves_priority`. -/
def executeCrossBoundaryMovesPriority (g : Graph) (left right : List Nat)
    (pegs : List Nat) : List (Nat × Nat × Nat) × List Nat :=
  priorityLoop (crossBoundaryCandidates g left right) (pegCountL pegs + 1)
    pegs

/-- `_spatial_split`: stable-sort the region's node ids by row (or
column) coordinate and split at the middle index. -/
def spatialSplit (g : Graph) (nodeIndices : List Nat) (byRow : Bool) :
    List Nat × List Nat :=
  let sortedNodes := sortAscBy
    (fun i => if byRow then (g.nodes.getD i (0, 0)).1
              else (g.nodes.getD i (0, 0)).2) nodeIndices
  (sortedNodes.take (sortedNodes.length / 2),
   sortedNodes.drop (sortedNodes.length / 2))

/-- `_solve_dc`: regions of at most 3 holes are handled by the
priority-greedy base case; larger regions are split spatially, the two
halves are solved recursively (left first, on the shared occupancy),
and cross-boundary moves are executed last.  The region's contribution
is left moves ++ right moves ++ cross moves. -/
def solveDC (g : Graph) (cancel : Bool) :
    List Nat → List Nat → Bool → List (Nat × Nat × Nat) × List Nat
  | nodeIndices, pegs, splitByRow =>
    if cancel then ([], pegs)
    else if nodeIndices.length ≤ 3 then
      solveSmallRegionPriority g nodeIndices pegs
    else
      let halves := spatialSplit g nodeIndices splitByRow
      let rl := solveDC g cancel halves.1 pegs (!splitByRow)
      let rr := solveDC g cancel halves.2 rl.2 (!splitByRow)
      let rc := executeCrossBoundaryMovesPriority g halves.1 halves.2 rr.2
      (rl.1 ++ rr.1 ++ rc.1, rc.2)
termination_by nodeIndices _ _ => nodeIndices.length
decreasing_by
  all_goals
    have hins : ∀ (key : Nat → Int) (x : Nat) (l : List Nat),
        (insertAscBy key x l).length = l.length + 1 := by
      intro key x l
      induction l with
      | nil => rfl
      | cons y ys ih =>
        simp only [insertAscBy]
        split_ifs <;> simp [ih]
    have hsort : ∀ (key : Nat → Int) (l : List Nat),
        (sortAscBy key l).length = l.length := by
      intro key l
      induction l with
      | nil => rfl
      | cons y ys ih => simp [sortAscBy, hins, ih]
    simp only [spatialSplit, List.length_take, List.length_drop, hsort]
    omega

/-- `_threaded_search` of the region-shrinking solver: works on a copy
of the game's occupancy; an empty or cancelled result is reported as
None.  The second component is the externally visible game state after
the call. -/
def regionThreadedSearch (g : Graph) (game : GameState) (cancel : Bool) :
    Option (List (Nat × Nat × Nat)) × GameState :=
  let pegs := game.pegs
  let solution := (solveDC g cancel (List.range g.nodes.length) pegs true).1
  ((if cancel then none else if solution.isEmpty then none else some solution),
   game)

/-- Each move of a sequence is legal against the occupancy produced by
the preceding moves. -/
def movesLegalFrom (g : Graph) (pegs : List Nat) :
    List (Nat × Nat × Nat) → Prop
  | [] => True
  | mv :: ms => mv ∈ legalMovesPegs g pegs ∧
      movesLegalFrom g (applyMovePegs pegs mv) ms

/-- Fold a move sequence over an occupancy. -/
def applyAllPegs (pegs : List Nat) : List (Nat × Nat × Nat) → List Nat
  | [] => pegs
  | mv :: ms => applyAllPegs (applyMovePegs pegs mv) ms

/-! ## Exhaustive bitboard solver (`DivideAndConquerSolver` of
`pegdc.py`)

The occupancy is packed into a single natural number, one bit per
hole; moves are triples of single-bit masks `(1 << s, 1 << m, 1 << e)`
precomputed from the jump list.  The recursion of `_solve` is driven
by a fuel argument; each applied move removes exactly one peg, so a
fuel of `popcount bb` always suffices and the fuel-exhausted branch
returns the same value the no-moves base case would.
-/

/-- Number of set bits of a natural number (`int.bit_count`). -/
def popcount (n : Nat) : Nat :=
  ((Finset.range (n + 1)).filter (fun k => n.testBit k)).card

/-- `state_to_bitboard`: set bit `i` for every peg. -/
def stateToBitboard (game : GameState) : Nat :=
  game.pegs.enum.foldl
    (fun bb p => if p.2 ≠ 0 then bb ||| (1 <<< p.1) else bb) 0

/-- The precomputed move masks `(1 << s, 1 << m, 1 << e)`. -/
def moveMasks (g : Graph) : List (Nat × Nat × Nat) :=
  g.validJumps.map (fun t => (1 <<< t.1, 1 <<< t.2.1, 1 <<< t.2.2))

/-- `apply_move` on bitboards: `(bb & ~(s | m)) | e`. -/
def applyMoveBB (bb : Nat) (m : Nat × Nat × Nat) : Nat :=
  Nat.ldiff bb (m.1 ||| m.2.1) ||| m.2.2

/-- The `for move in moves` loop of `_solve`, tracking the best
candidate found so far; a strictly better candidate replaces the best
(so ties keep the earlier candidate), and a 1-peg outcome stops the
scan of the remaining sibling moves. -/
def solveBitGo (f : Nat → Nat × List (Nat × Nat × Nat)) (bb : Nat) :
    List (Nat × Nat × Nat) → Nat → List (Nat × Nat × Nat) →
    Nat × List (Nat × Nat × Nat)
  | [], best, path => (best, path)
  | mv :: rest, best, path =>
    let r := f (applyMoveBB bb mv)
    let best' := if r.1 < best then (r.1, mv :: r.2) else (best, path)
    if best'.1 = 1 then best' else solveBitGo f bb rest best'.1 best'.2

/-- `_solve(bb)` with explicit fuel: if cancelled or no legal move,
return `(popcount bb, [])`; otherwise scan the legal moves with the
best-tracking loop starting from the sentinel best of 999. -/
def solveBitAux (masks : List (Nat × Nat × Nat)) (cancel : Bool) :
    Nat → Nat → Nat × List (Nat × Nat × Nat)
  | 0, bb => (popcount bb, [])
  | fuel + 1, bb =>
    if cancel then (popcount bb, [])
    else
      let moves := masks.filter (fun mv =>
        bb &&& mv.1 ≠ 0 ∧ bb &&& mv.2.1 ≠ 0 ∧ bb &&& mv.2.2 = 0)
      if moves.isEmpty then (popcount bb, [])
      else solveBitGo (solveBitAux masks cancel fuel) bb moves 999 []

/-- `_solve` run on a bitboard (fuel `popcount bb` suffices). -/
def solveBit (masks : List (Nat × Nat × Nat)) (cancel : Bool) (bb : Nat) :
    Nat × List (Nat × Nat × Nat) :=
  solveBitAux masks cancel (popcount bb) bb

/-- `_threaded_solve`: derive the bitboard from the live game state,
solve, and convert each single-bit mask back to a hole id
(`bit_length() - 1`).  The second component is the externally visible
game state after the call. -/
def bitboardThreadedSolve (g : Graph) (game : GameState) (cancel : Bool) :
    List (Nat × Nat × Nat) × GameState :=
  let bb := stateToBitboard game
  let r := solveBit (moveMasks g) cancel bb
  (r.2.map (fun m => (m.1.log2, m.2.1.log2, m.2.2.log2)), game)

/-- Well-formedness of a mask list: every mask triple consists of
three distinct powers of two (as holds for masks precomputed from a
well-formed jump list). -/
def MasksWF (masks : List (Nat × Nat × Nat)) : Prop :=
  ∀ m ∈ masks, ∃ a ∈ Finset.range (m.1 + 1), ∃ b ∈ Finset.range (m.2.1 + 1),
    ∃ c ∈ Finset.range (m.2.2 + 1),
      m = (2 ^ a, 2 ^ b, 2 ^ c) ∧ a ≠ b ∧ a ≠ c ∧ b ≠ c

instance (masks : List (Nat × Nat × Nat)) : Decidable (MasksWF masks) := by
  unfold MasksWF; infer_instance

/-- Each move of a mask sequence is drawn from the mask list and is
legal (start and mid bits set, end bit clear) on the bitboard produced
by the preceding moves. -/
def movesLegalBB (masks : List (Nat × Nat × Nat)) :
    Nat → List (Nat × Nat × Nat) → Prop
  | _, [] => True
  | bb, mv :: ms => mv ∈ masks ∧
      (bb &&& mv.1 ≠ 0 ∧ bb &&& mv.2.1 ≠ 0 ∧ bb &&& mv.2.2 = 0) ∧
      movesLegalBB masks (applyMoveBB bb mv) ms

/-- Fold a mask-move sequence over a bitboard. -/
def applyAllBB (bb : Nat) : List (Nat × Nat × Nat) → Nat
  | [] => bb
  | mv :: ms => applyAllBB (applyMoveBB bb mv) ms

/-- A position where the code's greedy choice and the claimed
simulation-based score disagree: pegs at (0,2), (0,3), (2,3), (3,3),
empty holes at (0,4) and (4,3). -/
def c2Board : MBoard :=
  [[-1, -1, 1, 1, 0, -1, -1],
   [-1, -1, -1, -1, -1, -1, -1],
   [-1, -1, -1, 1, -1, -1, -1],
   [-1, -1, -1, 1, -1, -1, -1],
   [-1, -1, -1, 0, -1, -1, -1],
   [-1, -1, -1, -1, -1, -1, -1],
   [-1, -1, -1, -1, -1, -1, -1]]

/-! ## Theorems -/

set_option maxRecDepth 10000

theorem englishJumps_rev_closed :
    ∀ t ∈ englishGraph.validJumps,
      (t.2.2, t.2.1, t.1) ∈ englishGraph.validJumps := by decide

theorem europeanJumps_rev_closed :
    ∀ t ∈ europeanGraph.validJumps,
      (t.2.2, t.2.1, t.1) ∈ europeanGraph.validJumps := by decide

/-- Claim C9: for both board shapes, the precomputed jump-triple set is
closed under reversal: `(s, m, e)` is a jump iff `(e, m, s)` is. -/
theorem C9_jump_reversal :
    (∀ s m e : Nat, (s, m, e) ∈ englishGraph.validJumps ↔
      (e, m, s) ∈ englishGraph.validJumps) ∧
    (∀ s m e : Nat, (s, m, e) ∈ europeanGraph.validJumps ↔
      (e, m, s) ∈ europeanGraph.validJumps) := by
  constructor
  · intro s m e
    exact ⟨fun h => englishJumps_rev_closed _ h,
           fun h => englishJumps_rev_closed _ h⟩
  · intro s m e
    exact ⟨fun h => europeanJumps_rev_closed _ h,
           fun h => europeanJumps_rev_closed _ h⟩

/-- Claim C1, counterexample: on the initial english board the move
`(0, 1, 2)` is not legal (its end hole holds a peg), yet `execute_move`
does not fail and does not leave the state unchanged — it mutates the
occupancy and pushes the prior occupancy onto the history. -/
theorem C1_counterexample :
    (0, 1, 2) ∉ getLegalMoves englishGraph (initialState englishGraph) ∧
    (executeMove (initialState englishGraph) (0, 1, 2)).pegs ≠
      (initialState englishGraph).pegs ∧
    (executeMove (initialState englishGraph) (0, 1, 2)).history =
      [(initialState englishGraph).pegs] := by
  decide

/-- Claim C1, amended: `execute_move` performs no legality check — on a
move that is not currently legal it still pushes the prior occupancy
onto the history and applies the occupancy update, silently accepting
the move instead of failing with `IllegalMoveError`. -/
theorem C1_execute_move_unchecked :
    ∀ (g : Graph) (st : GameState) (mv : Nat × Nat × Nat),
      mv ∉ getLegalMoves g st →
      (executeMove st mv).history = st.pegs :: st.history ∧
      (executeMove st mv).pegs = applyMovePegs st.pegs mv := by
  intro g st mv _
  exact ⟨rfl, rfl⟩

theorem C1_execute_move_unchecked_witness :
    (0, 1, 2) ∉ getLegalMoves englishGraph (initialState englishGraph) ∧
    (executeMove (initialState englishGraph) (0, 1, 2)).history =
      (initialState englishGraph).pegs ::
        (initialState englishGraph).history ∧
    (executeMove (initialState englishGraph) (0, 1, 2)).pegs =
      applyMovePegs (initialState englishGraph).pegs (0, 1, 2) :=
  ⟨by decide, C1_execute_move_unchecked englishGraph _ _ (by decide)⟩

/-- Claim C4, counterexample: constructing a board graph with the
unrecognized shape identifier "diamond37" does not fail — it silently
builds the european layout (37 holes). -/
theorem C4_counterexample :
    buildGraph "diamond37" = buildGraph "european" ∧
    (buildGraph "diamond37").nodes.length = 37 := by
  constructor
  · rfl
  · decide

/-- Claim C4, amended: topology construction never fails on any shape
identifier: "english" builds the 33-hole cross layout and every other
identifier — recognized or not — silently builds the 37-hole european
layout; there is no `UnknownShapeError`. -/
theorem C4_shape_handling :
    (buildGraph "english").nodes.length = 33 ∧
    (buildGraph "european").nodes.length = 37 ∧
    ∀ v : String, v ≠ "english" → buildGraph v = buildGraph "european" := by
  refine ⟨by decide, by decide, ?_⟩
  intro v hv
  simp [buildGraph, boardLayout, if_neg hv]

theorem C4_shape_handling_witness :
    "diamond37" ≠ "english" ∧
    buildGraph "diamond37" = buildGraph "european" :=
  ⟨by decide, C4_shape_handling.2.2 _ (by decide)⟩

/-- Claim C6: undo is a left-inverse of apply — executing any legal
move and then undoing restores the original occupancy and reports
success, while undo on an empty history keeps the occupancy and
reports failure. -/
theorem C6_undo_left_inverse :
    (∀ (g : Graph) (st : GameState) (mv : Nat × Nat × Nat),
        mv ∈ getLegalMoves g st →
        (undo (executeMove st mv)).2 = true ∧
        (undo (executeMove st mv)).1.pegs = st.pegs) ∧
    (∀ st : GameState, st.history = [] →
        (undo st).1.pegs = st.pegs ∧ (undo st).2 = false) := by
  constructor
  · intro g st mv _
    exact ⟨rfl, rfl⟩
  · intro st h
    obtain ⟨pegs, history⟩ := st
    cases history with
    | nil => exact ⟨rfl, rfl⟩
    | cons a b => simp at h

theorem C6_undo_left_inverse_witness :
    ((4, 9, 16) ∈ getLegalMoves englishGraph (initialState englishGraph) ∧
     (undo (executeMove (initialState englishGraph) (4, 9, 16))).2 = true ∧
     (undo (executeMove (initialState englishGraph) (4, 9, 16))).1.pegs =
       (initialState englishGraph).pegs) ∧
    ((initialState englishGraph).history = [] ∧
     (undo (initialState englishGraph)).1.pegs =
       (initialState englishGraph).pegs ∧
     (undo (initialState englishGraph)).2 = false) := by
  constructor
  · exact ⟨by decide, C6_undo_left_inverse.1 englishGraph _ _ (by decide)⟩
  · exact ⟨rfl, C6_undo_left_inverse.2 _ rfl⟩

theorem getD_set_ne {α : Type} (l : List α) {i j : Nat} (h : i ≠ j)
    (v d : α) : (l.set i v).getD j d = l.getD j d := by
  simp [List.getD_eq_getElem?_getD, List.getElem?_set_ne h]

theorem getD_set_self_of_lt {α : Type} (l : List α) {i : Nat}
    (h : i < l.length) (v d : α) : (l.set i v).getD i d = v := by
  simp [List.getD_eq_getElem?_getD, List.getElem?_set_self h]

theorem sum_split_at (l : List Nat) {i : Nat} (h : i < l.length) :
    l.sum = (l.take i).sum + l[i] + (l.drop (i + 1)).sum := by
  conv_lhs => rw [← List.take_append_drop i l, List.drop_eq_getElem_cons h]
  rw [List.sum_append, List.sum_cons]
  omega

theorem sum_set_getD (l : List Nat) {i : Nat} (h : i < l.length) (v : Nat) :
    (l.set i v).sum + l.getD i 0 = l.sum + v := by
  rw [List.sum_set, if_pos h, List.getD_eq_getElem _ _ h, sum_split_at l h]
  omega

theorem pegAt_lt_length {pegs : List Nat} {i : Nat}
    (h : pegAt pegs i ≠ 2) : i < pegs.length := by
  by_contra hc
  exact h (by simp [pegAt, List.getD_eq_getElem?_getD,
    List.getElem?_eq_none (Nat.le_of_not_lt hc)])

/-- Claim C5: applying a legal move empties the start and mid holes,
fills the end hole, and decreases the peg count by exactly one; and a
move attempt rejected by `try_move` leaves the board unchanged. -/
theorem C5_apply_effect_and_reject :
    (∀ (g : Graph) (st : GameState) (mv : Nat × Nat × Nat),
        JumpsWF g → mv ∈ getLegalMoves g st →
        pegAt (executeMove st mv).pegs mv.1 = 0 ∧
        pegAt (executeMove st mv).pegs mv.2.1 = 0 ∧
        pegAt (executeMove st mv).pegs mv.2.2 = 1 ∧
        pegCountL (executeMove st mv).pegs + 1 = pegCountL st.pegs) ∧
    (∀ (bd : MBoard) (src dest : Nat × Nat),
        (tryMove bd src dest).2 = false → (tryMove bd src dest).1 = bd) := by
  constructor
  · intro g st mv hwf hmem
    obtain ⟨s, m, e⟩ := mv
    simp only [getLegalMoves, legalMovesPegs, List.mem_filter,
      decide_eq_true_eq] at hmem
    obtain ⟨hjump, hs, hm, he⟩ := hmem
    obtain ⟨hsm', hse', hme', -, -, -⟩ := hwf _ hjump
    have hsm : s ≠ m := hsm'
    have hse : s ≠ e := hse'
    have hme : m ≠ e := hme'
    have hsl : s < st.pegs.length := pegAt_lt_length (by rw [hs]; omega)
    have hml : m < st.pegs.length := pegAt_lt_length (by rw [hm]; omega)
    have hel : e < st.pegs.length := pegAt_lt_length (by rw [he]; omega)
    simp only [executeMove, applyMovePegs]
    refine ⟨?_, ?_, ?_, ?_⟩
    · rw [pegAt, getD_set_ne _ (Ne.symm hse), getD_set_ne _ (Ne.symm hsm),
        getD_set_self_of_lt _ hsl]
    · rw [pegAt, getD_set_ne _ (Ne.symm hme),
        getD_set_self_of_lt _ (by simpa using hml)]
    · rw [pegAt, getD_set_self_of_lt _ (by simpa using hel)]
    · have e1 := sum_set_getD st.pegs hsl 0
      have e2 := sum_set_getD (st.pegs.set s 0) (i := m) (by simpa using hml) 0
      have e3 := sum_set_getD ((st.pegs.set s 0).set m 0) (i := e)
        (by simpa using hel) 1
      rw [getD_set_ne _ hsm] at e2
      rw [getD_set_ne _ hme, getD_set_ne _ hse] at e3
      have hs0 : st.pegs.getD s 0 = 1 := by
        rw [List.getD_eq_getElem _ _ hsl]
        rw [pegAt, List.getD_eq_getElem _ _ hsl] at hs
        exact hs
      have hm0 : st.pegs.getD m 0 = 1 := by
        rw [List.getD_eq_getElem _ _ hml]
        rw [pegAt, List.getD_eq_getElem _ _ hml] at hm
        exact hm
      have he0 : st.pegs.getD e 0 = 0 := by
        rw [List.getD_eq_getElem _ _ hel]
        rw [pegAt, List.getD_eq_getElem _ _ hel] at he
        exact he
      simp only [pegCountL]
      omega
  · intro bd src dest h
    simp only [tryMove] at h ⊢
    split_ifs at h ⊢ <;> simp_all

theorem C5_apply_effect_and_reject_witness :
    (JumpsWF englishGraph ∧
     (4, 9, 16) ∈ getLegalMoves englishGraph (initialState englishGraph) ∧
     pegAt (executeMove (initialState englishGraph) (4, 9, 16)).pegs 4 = 0 ∧
     pegAt (executeMove (initialState englishGraph) (4, 9, 16)).pegs 9 = 0 ∧
     pegAt (executeMove (initialState englishGraph) (4, 9, 16)).pegs 16 = 1 ∧
     pegCountL (executeMove (initialState englishGraph) (4, 9, 16)).pegs + 1 =
       pegCountL (initialState englishGraph).pegs) ∧
    ((tryMove c2Board (0, 0) (0, 1)).2 = false ∧
     (tryMove c2Board (0, 0) (0, 1)).1 = c2Board) := by
  constructor
  · exact ⟨by decide, by decide,
      C5_apply_effect_and_reject.1 englishGraph _ _ (by decide) (by decide)⟩
  · exact ⟨by decide, C5_apply_effect_and_reject.2 _ _ _ (by decide)⟩

theorem head_insertDescBy {α β : Type} [LinearOrder β] (key : α → β)
    (x : α) (s : List α) :
    (insertDescBy key x s).head? =
      some (match s.head? with
            | none => x
            | some y => if key y ≤ key x then x else y) := by
  cases s with
  | nil => rfl
  | cons y ys =>
    simp only [insertDescBy, List.head?_cons]
    split_ifs <;> rfl

theorem head_sortDescBy {α β : Type} [LinearOrder β] (key : α → β)
    (l : List α) : (sortDescBy key l).head? = firstMaxBy key l := by
  induction l with
  | nil => rfl
  | cons x xs ih =>
    simp only [sortDescBy, firstMaxBy, head_insertDescBy, ← ih]
    cases h : (sortDescBy key xs).head? with
    | none => simp
    | some v =>
      show some (if key v ≤ key x then x else v) =
        if key v ≤ key x then some x else some v
      exact apply_ite some (key v ≤ key x) x v

theorem firstMaxBy_ne_none {α β : Type} [LinearOrder β] (key : α → β)
    (x : α) (xs : List α) : firstMaxBy key (x :: xs) ≠ none := by
  simp only [firstMaxBy]
  cases firstMaxBy key xs with
  | none => simp
  | some h =>
    show (if key h ≤ key x then some x else some h) ≠ none
    split_ifs <;> simp

theorem firstMaxBy_spec {α β : Type} [LinearOrder β] (key : α → β) :
    ∀ (l : List α) (h : α), firstMaxBy key l = some h →
      ∃ pre post, l = pre ++ h :: post ∧
        (∀ y ∈ pre, key y < key h) ∧ (∀ y ∈ l, key y ≤ key h) := by
  intro l
  induction l with
  | nil => intro h hh; simp [firstMaxBy] at hh
  | cons x xs ih =>
    intro h hh
    simp only [firstMaxBy] at hh
    cases hx : firstMaxBy key xs with
    | none =>
      rw [hx] at hh
      have hh' : some x = some h := hh
      obtain rfl : x = h := Option.some_inj.mp hh'
      have hxs : xs = [] := by
        cases xs with
        | nil => rfl
        | cons a as => exact absurd hx (firstMaxBy_ne_none key a as)
      subst hxs
      exact ⟨[], [], rfl, by simp, by
        intro y hy
        rw [List.mem_singleton] at hy
        subst hy
        exact le_refl _⟩
    | some h' =>
      rw [hx] at hh
      have hh' : (if key h' ≤ key x then some x else some h') = some h := hh
      obtain ⟨pre', post', heq, hpre', hall'⟩ := ih h' hx
      by_cases hle : key h' ≤ key x
      · rw [if_pos hle] at hh'
        obtain rfl : x = h := Option.some_inj.mp hh'
        refine ⟨[], xs, rfl, by simp, ?_⟩
        intro y hy
        rcases List.mem_cons.mp hy with rfl | hy
        · exact le_refl _
        · exact le_trans (hall' y hy) hle
      · rw [if_neg hle] at hh'
        obtain rfl : h' = h := Option.some_inj.mp hh'
        refine ⟨x :: pre', post', by rw [heq]; rfl, ?_, ?_⟩
        · intro y hy
          rcases List.mem_cons.mp hy with rfl | hy
          · exact not_le.mp hle
          · exact hpre' y hy
        · intro y hy
          rcases List.mem_cons.mp hy with rfl | hy
          · exact le_of_lt (not_le.mp hle)
          · exact hall' y hy

/-- Claim C2, amended: `get_greedy_move` returns None exactly when no
valid move exists, and otherwise returns the first move, in
`get_valid_moves` enumeration order, among those whose START square has
maximal Manhattan distance from the center (3, 3).  It performs no
simulation of the move, no mobility count of the resulting state, and
no landing-hole centrality bonus. -/
theorem C2_greedy_start_distance :
    ∀ bd : MBoard,
      (getGreedyMove bd = none ↔ getValidMoves bd = []) ∧
      (∀ mv, getGreedyMove bd = some mv →
        ∃ pre post, getValidMoves bd = pre ++ mv :: post ∧
          (∀ m ∈ pre, moveKey m < moveKey mv) ∧
          (∀ m ∈ getValidMoves bd, moveKey m ≤ moveKey mv)) := by
  intro bd
  constructor
  · simp only [getGreedyMove]
    cases h : getValidMoves bd with
    | nil => simp
    | cons a as =>
      simp only [List.isEmpty_cons, if_neg Bool.false_ne_true,
        head_sortDescBy, Bool.false_eq_true, if_false]
      exact ⟨fun hn => absurd hn (firstMaxBy_ne_none _ a as),
             fun hn => List.cons_ne_nil a as hn |>.elim⟩
  · intro mv hmv
    simp only [getGreedyMove] at hmv
    cases h : getValidMoves bd with
    | nil => rw [h] at hmv; simp at hmv
    | cons a as =>
      rw [h] at hmv
      simp only [List.isEmpty_cons, Bool.false_eq_true, if_false,
        head_sortDescBy] at hmv
      rw [← h] at hmv ⊢
      exact firstMaxBy_spec moveKey _ mv hmv

/-- Claim C2, counterexample: on `c2Board` the code returns the move
`(0,2) → (0,4)` (its start square is farthest from the center), while
the claimed score 10 × (resulting legal-move count) + 5 (central
landing) is strictly larger for the legal move `(2,3) → (4,3)` — so
the returned move does not maximize the claimed score. -/
theorem C2_counterexample :
    (2, 3, 4, 3) ∈ getValidMoves c2Board ∧
    getGreedyMove c2Board = some (0, 2, 0, 4) ∧
    claimGreedyScore c2Board (0, 2, 0, 4) <
      claimGreedyScore c2Board (2, 3, 4, 3) := by
  decide

theorem C2_greedy_start_distance_witness :
    getGreedyMove c2Board = some (0, 2, 0, 4) ∧
    (∃ pre post, getValidMoves c2Board = pre ++ (0, 2, 0, 4) :: post ∧
      (∀ m ∈ pre, moveKey m < moveKey (0, 2, 0, 4)) ∧
      (∀ m ∈ getValidMoves c2Board, moveKey m ≤ moveKey (0, 2, 0, 4))) :=
  ⟨by decide, (C2_greedy_start_distance c2Board).2 _ (by decide)⟩

theorem cons_middle_swap {α : Type} (a b : α) (M R : List α) :
    (a :: (M ++ b :: R)).Perm (b :: (M ++ a :: R)) := by
  refine List.Perm.trans (List.Perm.cons a List.perm_middle) ?_
  refine List.Perm.trans (List.Perm.swap b a (M ++ R)) ?_
  exact List.Perm.cons b List.perm_middle.symm

theorem set_perm {α : Type} (l : List α) {k : Nat} (a : α)
    (hk : k < l.length) : (l[k] :: l.set k a).Perm (a :: l) := by
  conv_rhs => rw [← List.take_append_drop k l, List.drop_eq_getElem_cons hk]
  rw [List.set_eq_take_cons_drop a hk]
  exact cons_middle_swap _ _ _ _

theorem listSwap_length {α : Type} [Inhabited α] (l : List α) (i j : Nat) :
    (listSwap l i j).length = l.length := by
  simp [listSwap]

theorem listSwap_getD_left {α : Type} [Inhabited α] (l : List α) {i j : Nat}
    (hi : i < l.length) (hj : j < l.length) :
    (listSwap l i j).getD i default = l.getD j default := by
  by_cases h : i = j
  · subst h
    rw [listSwap, getD_set_self_of_lt _ (by simpa using hi)]
  · rw [listSwap, getD_set_ne _ (Ne.symm h),
      getD_set_self_of_lt _ hi]

theorem listSwap_getD_right {α : Type} [Inhabited α] (l : List α) {i j : Nat}
    (hj : j < l.length) :
    (listSwap l i j).getD j default = l.getD i default := by
  rw [listSwap, getD_set_self_of_lt _ (by simpa using hj)]

theorem listSwap_getD_other {α : Type} [Inhabited α] (l : List α)
    {i j k : Nat} (hik : k ≠ i) (hjk : k ≠ j) :
    (listSwap l i j).getD k default = l.getD k default := by
  rw [listSwap, getD_set_ne _ (Ne.symm hjk), getD_set_ne _ (Ne.symm hik)]

theorem listSwap_perm {α : Type} [Inhabited α] (l : List α) {i j : Nat}
    (hi : i < l.length) (hj : j < l.length) : (listSwap l i j).Perm l := by
  by_cases h : i = j
  · subst h
    have h2 := set_perm l (l.getD i default) hi
    rw [List.getD_eq_getElem _ _ hi] at h2
    have h3 : (l.set i l[i]).Perm l := List.Perm.cons_inv h2
    rw [listSwap, List.set_set, List.getD_eq_getElem _ _ hi]
    exact h3
  · have gdi : l.getD i default = l[i] := List.getD_eq_getElem _ _ hi
    have gdj : l.getD j default = l[j] := List.getD_eq_getElem _ _ hj
    rw [listSwap, gdi, gdj]
    have hjA : j < (l.set i l[j]).length := by
      rw [List.length_set]; exact hj
    have h1 := set_perm (l.set i l[j]) l[i] hjA
    rw [List.getElem_set_ne h hjA] at h1
    have h2 := set_perm l l[j] hi
    exact List.Perm.cons_inv (List.Perm.trans h1 h2)

theorem partitionLoop_spec {α : Type} [Inhabited α] (key : α → Nat)
    (pivot : Nat) :
    ∀ (steps j ip low0 : Nat) (arr : List α),
      low0 ≤ ip → ip ≤ j → j + steps ≤ arr.length →
      (∀ k, low0 ≤ k → k < ip → key (arr.getD k default) ≤ pivot) →
      (∀ k, ip ≤ k → k < j → pivot < key (arr.getD k default)) →
      ((partitionLoop key pivot steps j ip arr).2.length = arr.length ∧
       (partitionLoop key pivot steps j ip arr).2.Perm arr) ∧
      (ip ≤ (partitionLoop key pivot steps j ip arr).1 ∧
       (partitionLoop key pivot steps j ip arr).1 ≤ j + steps) ∧
      (∀ k, (k < ip ∨ j + steps ≤ k) →
        (partitionLoop key pivot steps j ip arr).2.getD k default =
          arr.getD k default) ∧
      (∀ k, low0 ≤ k → k < (partitionLoop key pivot steps j ip arr).1 →
        key ((partitionLoop key pivot steps j ip arr).2.getD k default) ≤
          pivot) ∧
      (∀ k, (partitionLoop key pivot steps j ip arr).1 ≤ k → k < j + steps →
        pivot <
          key ((partitionLoop key pivot steps j ip arr).2.getD k default)) := by
  intro steps
  induction steps with
  | zero =>
    intro j ip low0 arr h0 h1 h2 inv1 inv2
    refine ⟨⟨rfl, List.Perm.refl _⟩, ⟨le_refl _, ?_⟩, fun k _ => rfl,
      fun k hk1 hk2 => inv1 k hk1 hk2,
      fun k hk1 hk2 => inv2 k hk1 ?_⟩
    · show ip ≤ j + 0
      omega
    · have hk2' : k < j + 0 := hk2
      omega
  | succ steps ih =>
    intro j ip low0 arr h0 h1 h2 inv1 inv2
    have hjlen : j < arr.length := by omega
    have hiplen : ip < arr.length := by omega
    simp only [partitionLoop]
    by_cases hcmp : key (arr.getD j default) ≤ pivot
    · rw [if_pos hcmp]
      have hlen' : (listSwap arr ip j).length = arr.length :=
        listSwap_length arr ip j
      have hperm' : (listSwap arr ip j).Perm arr :=
        listSwap_perm arr hiplen hjlen
      have inv1' : ∀ k, low0 ≤ k → k < ip + 1 →
          key ((listSwap arr ip j).getD k default) ≤ pivot := by
        intro k hk1 hk2
        rcases Nat.lt_or_ge k ip with hk | hk
        · rw [listSwap_getD_other arr (by omega) (by omega)]
          exact inv1 k hk1 hk
        · have hki : k = ip := by omega
          subst hki
          rw [listSwap_getD_left arr hiplen hjlen]
          exact hcmp
      have inv2' : ∀ k, ip + 1 ≤ k → k < j + 1 →
          pivot < key ((listSwap arr ip j).getD k default) := by
        intro k hk1 hk2
        rcases Nat.lt_or_ge k j with hk | hk
        · rw [listSwap_getD_other arr (by omega) (by omega)]
          exact inv2 k (by omega) hk
        · have hkj : k = j := by omega
          subst hkj
          rw [listSwap_getD_right arr hjlen]
          exact inv2 ip (le_refl _) (by omega)
      obtain ⟨⟨ihlen, ihperm⟩, ⟨ihlo, ihhi⟩, ihunt, ihv1, ihv2⟩ :=
        ih (j + 1) (ip + 1) low0 (listSwap arr ip j) (by omega) (by omega)
          (by omega) inv1' inv2'
      refine ⟨⟨by rw [ihlen, hlen'], ihperm.trans hperm'⟩,
        ⟨by omega, by omega⟩, ?_, ihv1, ?_⟩
      · intro k hk
        rw [ihunt k (by omega), listSwap_getD_other arr (by omega) (by omega)]
      · intro k hk1 hk2
        exact ihv2 k hk1 (by omega)
    · rw [if_neg hcmp]
      have inv2' : ∀ k, ip ≤ k → k < j + 1 →
          pivot < key (arr.getD k default) := by
        intro k hk1 hk2
        rcases Nat.lt_or_ge k j with hk | hk
        · exact inv2 k hk1 hk
        · have hkj : k = j := by omega
          subst hkj
          exact not_le.mp hcmp
      obtain ⟨⟨ihlen, ihperm⟩, ⟨ihlo, ihhi⟩, ihunt, ihv1, ihv2⟩ :=
        ih (j + 1) ip low0 arr h0 (by omega) (by omega) inv1 inv2'
      refine ⟨⟨ihlen, ihperm⟩, ⟨ihlo, by omega⟩, ?_, ihv1, ?_⟩
      · intro k hk
        exact ihunt k (by omega)
      · intro k hk1 hk2
        exact ihv2 k hk1 (by omega)

theorem partition_spec {α : Type} [Inhabited α] (key : α → Nat)
    (arr : List α) (low high : Nat) (hlo : low ≤ high)
    (hhi : high < arr.length) :
    ((partition key arr low high).2.length = arr.length ∧
     (partition key arr low high).2.Perm arr) ∧
    (low ≤ (partition key arr low high).1 ∧
     (partition key arr low high).1 ≤ high) ∧
    (∀ k, (k < low ∨ high < k) →
      (partition key arr low high).2.getD k default =
        arr.getD k default) ∧
    (∀ k, low ≤ k → k < (partition key arr low high).1 →
      key ((partition key arr low high).2.getD k default) ≤
        key ((partition key arr low high).2.getD
          (partition key arr low high).1 default)) ∧
    (∀ k, (partition key arr low high).1 < k → k ≤ high →
      key ((partition key arr low high).2.getD
          (partition key arr low high).1 default) <
        key ((partition key arr low high).2.getD k default)) := by
  obtain ⟨⟨l1, p1⟩, ⟨b1, b2⟩, unt, v1, v2⟩ :=
    partitionLoop_spec key (key (arr.getD high default)) (high - low) low low
      low arr (le_refl _) (le_refl _) (by omega)
      (fun k hk1 hk2 => absurd hk2 (by omega))
      (fun k hk1 hk2 => absurd hk2 (by omega))
  have hpr : partition key arr low high =
      ((partitionLoop key (key (arr.getD high default)) (high - low) low low
          arr).1,
       listSwap
         (partitionLoop key (key (arr.getD high default)) (high - low) low low
           arr).2
         (partitionLoop key (key (arr.getD high default)) (high - low) low low
           arr).1 high) := rfl
  rw [hpr]
  set ip1 := (partitionLoop key (key (arr.getD high default)) (high - low) low
    low arr).1
  set arr1 := (partitionLoop key (key (arr.getD high default)) (high - low) low
    low arr).2
  have hip1 : ip1 ≤ high := by omega
  have hipl1 : ip1 < arr1.length := by omega
  have hhil1 : high < arr1.length := by omega
  have hpivot : arr1.getD high default = arr.getD high default :=
    unt high (Or.inr (by omega))
  have hFpiv :
      (listSwap arr1 ip1 high).getD ip1 default = arr.getD high default := by
    rw [listSwap_getD_left arr1 hipl1 hhil1, hpivot]
  refine ⟨⟨by rw [listSwap_length, l1],
    (listSwap_perm arr1 hipl1 hhil1).trans p1⟩, ⟨b1, hip1⟩, ?_, ?_, ?_⟩
  · intro k hk
    rw [listSwap_getD_other arr1 (by omega) (by omega)]
    exact unt k (by omega)
  · intro k hk1 hk2
    rw [hFpiv, listSwap_getD_other arr1 (by omega) (by omega)]
    exact v1 k hk1 hk2
  · intro k hk1 hk2
    rw [hFpiv]
    rcases Nat.lt_or_ge k high with hk | hk
    · rw [listSwap_getD_other arr1 (by omega) (by omega)]
      exact v2 k (by omega) (by omega)
    · have hkh : k = high := by omega
      subst hkh
      rw [listSwap_getD_right arr1 hhil1]
      exact v2 ip1 (le_refl _) (by omega)

theorem seg_value_transfer {α : Type} [Inhabited α] (P : α → Prop)
    (l l' : List α) (lo hi : Nat)
    (hperm : l'.Perm l) (hlen : l'.length = l.length)
    (hlow : ∀ k, k < lo → l'.getD k default = l.getD k default)
    (hhigh : ∀ k, hi < k → l'.getD k default = l.getD k default)
    (hP : ∀ k, lo ≤ k → k ≤ hi → k < l.length → P (l.getD k default)) :
    ∀ k, lo ≤ k → k ≤ hi → k < l'.length → P (l'.getD k default) := by
  intro k hk1 hk2 hk3
  have hlohi : lo ≤ hi := le_trans hk1 hk2
  have hpre : l'.take lo = l.take lo := by
    apply List.ext_getElem (by simp [hlen])
    intro n hn1 hn2
    have hnlo : n < lo := by simp at hn1; omega
    have hnl : n < l.length := by simp at hn2; omega
    have hnl' : n < l'.length := by rw [hlen]; exact hnl
    rw [List.getElem_take, List.getElem_take]
    have := hlow n hnlo
    rwa [List.getD_eq_getElem _ _ hnl', List.getD_eq_getElem _ _ hnl] at this
  have hsuf : l'.drop (hi + 1) = l.drop (hi + 1) := by
    apply List.ext_getElem (by simp [hlen])
    intro n hn1 hn2
    have hnl : hi + 1 + n < l.length := by simp at hn2; omega
    have hnl' : hi + 1 + n < l'.length := by rw [hlen]; exact hnl
    rw [List.getElem_drop, List.getElem_drop]
    have := hhigh (hi + 1 + n) (by omega)
    rwa [List.getD_eq_getElem _ _ hnl', List.getD_eq_getElem _ _ hnl] at this
  have hdec : ∀ m : List α, m.take lo ++ ((m.drop lo).take (hi + 1 - lo) ++
      m.drop (hi + 1)) = m := by
    intro m
    have h1 : (m.drop lo).take (hi + 1 - lo) ++ (m.drop lo).drop (hi + 1 - lo)
        = m.drop lo := List.take_append_drop _ _
    have h2 : (m.drop lo).drop (hi + 1 - lo) = m.drop (hi + 1) := by
      rw [List.drop_drop]
      congr 1
      omega
    rw [h2] at h1
    rw [h1, List.take_append_drop]
  have hsegperm : ((l'.drop lo).take (hi + 1 - lo)).Perm
      ((l.drop lo).take (hi + 1 - lo)) := by
    have hp : (l.take lo ++ ((l'.drop lo).take (hi + 1 - lo) ++
        l.drop (hi + 1))).Perm
        (l.take lo ++ ((l.drop lo).take (hi + 1 - lo) ++ l.drop (hi + 1))) := by
      conv_rhs => rw [hdec l]
      conv_lhs => rw [← hpre, ← hsuf, hdec l']
      exact hperm
    have hp2 := (List.perm_append_left_iff _).mp hp
    exact (List.perm_append_right_iff _).mp hp2
  have hkl' : k - lo < ((l'.drop lo).take (hi + 1 - lo)).length := by
    simp [hlen]
    omega
  have hkeq : lo + (k - lo) = k := by omega
  have hkval : ((l'.drop lo).take (hi + 1 - lo)).get ⟨k - lo, hkl'⟩ =
      l'.getD k default := by
    rw [List.get_eq_getElem, List.getElem_take, List.getElem_drop,
      ← List.getD_eq_getElem l' default (show lo + (k - lo) < l'.length by
        omega), hkeq]
  have hmem : l'.getD k default ∈ (l.drop lo).take (hi + 1 - lo) := by
    rw [← hkval]
    refine hsegperm.subset ?_
    rw [List.get_eq_getElem]
    exact List.getElem_mem _
  obtain ⟨n, hn, hval⟩ := List.mem_iff_getElem.mp hmem
  have hnlen : lo + n < l.length := by
    simp [List.length_take, List.length_drop] at hn
    omega
  have hnhi : lo + n ≤ hi := by
    simp [List.length_take, List.length_drop] at hn
    omega
  have hSn : ((l.drop lo).take (hi + 1 - lo)).get ⟨n, hn⟩ =
      l.getD (lo + n) default := by
    rw [List.get_eq_getElem, List.getElem_take, List.getElem_drop,
      List.getD_eq_getElem _ _ hnlen]
  rw [List.get_eq_getElem] at hSn
  rw [hSn] at hval
  rw [← hval]
  exact hP (lo + n) (by omega) hnhi hnlen

theorem quicksortAux_succ_pos {α : Type} [Inhabited α] (key : α → Nat)
    (fuel : Nat) (arr : List α) (low high : Nat) (h : low < high) :
    quicksortAux key (fuel + 1) arr low high =
      quicksortAux key fuel
        (quicksortAux key fuel (partition key arr low high).2 low
          ((partition key arr low high).1 - 1))
        ((partition key arr low high).1 + 1) high := by
  simp only [quicksortAux, if_pos h]

theorem quicksortAux_stop {α : Type} [Inhabited α] (key : α → Nat)
    (fuel : Nat) (arr : List α) (low high : Nat) (h : ¬ low < high) :
    quicksortAux key fuel arr low high = arr := by
  cases fuel with
  | zero => rfl
  | succ fuel => simp only [quicksortAux, if_neg h]

theorem quicksortAux_spec {α : Type} [Inhabited α] (key : α → Nat) :
    ∀ (fuel : Nat) (arr : List α) (low high : Nat),
      (low < high → high < arr.length) →
      ((quicksortAux key fuel arr low high).length = arr.length ∧
       (quicksortAux key fuel arr low high).Perm arr) ∧
      (∀ k, (k < low ∨ high < k) →
        (quicksortAux key fuel arr low high).getD k default =
          arr.getD k default) ∧
      (high + 1 ≤ low + fuel →
        ∀ j k, low ≤ j → j ≤ k → k ≤ high →
          key ((quicksortAux key fuel arr low high).getD j default) ≤
            key ((quicksortAux key fuel arr low high).getD k default)) := by
  intro fuel
  induction fuel with
  | zero =>
    intro arr low high hbound
    refine ⟨⟨rfl, List.Perm.refl _⟩, fun k _ => rfl, ?_⟩
    intro hfuel j k hj hjk hk
    omega
  | succ fuel ih =>
    intro arr low high hbound
    by_cases hlh : low < high
    · have hhi : high < arr.length := hbound hlh
      rw [quicksortAux_succ_pos key fuel arr low high hlh]
      obtain ⟨⟨plen, pperm⟩, ⟨pb1, pb2⟩, punt, pv1, pv2⟩ :=
        partition_spec key arr low high (le_of_lt hlh) hhi
      set pi := (partition key arr low high).1 with hpi
      set arr1 := (partition key arr low high).2 with harr1
      obtain ⟨⟨l2, p2⟩, unt2, sort2⟩ :=
        ih arr1 low (pi - 1) (fun h => by omega)
      set arr2 := quicksortAux key fuel arr1 low (pi - 1) with harr2
      obtain ⟨⟨l3, p3⟩, unt3, sort3⟩ :=
        ih arr2 (pi + 1) high (fun h => by omega)
      set arr3 := quicksortAux key fuel arr2 (pi + 1) high with harr3
      have hlen3 : arr3.length = arr.length := by omega
      refine ⟨⟨hlen3, p3.trans (p2.trans pperm)⟩, ?_, ?_⟩
      · intro k hk
        rw [unt3 k (by omega), unt2 k (by omega), punt k (by omega)]
      · intro hfuel j k hj hjk hk
        -- pivot value is preserved into arr2 and arr3
        have hpiv2 : arr2.getD pi default = arr1.getD pi default := by
          by_cases hpi0 : pi = 0
          · have h20 : arr2 = arr1 := by
              rw [harr2]
              exact quicksortAux_stop key fuel arr1 low (pi - 1) (by omega)
            rw [h20]
          · exact unt2 pi (Or.inr (by omega))
        have hpiv3 : arr3.getD pi default = arr1.getD pi default := by
          rw [unt3 pi (Or.inl (by omega)), hpiv2]
        -- all of [low, pi) in arr3 is ≤ the pivot key
        have hleft2 : ∀ m, low ≤ m → m < pi →
            key (arr2.getD m default) ≤ key (arr1.getD pi default) := by
          intro m hm1 hm2
          have hpi0 : 0 < pi := by omega
          refine seg_value_transfer
            (fun a => key a ≤ key (arr1.getD pi default)) arr1 arr2 low
            (pi - 1) p2 l2 (fun n hn => unt2 n (Or.inl hn))
            (fun n hn => unt2 n (Or.inr hn)) ?_ m hm1 (by omega) (by omega)
          intro n hn1 hn2 hn3
          exact pv1 n hn1 (by omega)
        have hleft3 : ∀ m, low ≤ m → m < pi →
            key (arr3.getD m default) ≤ key (arr1.getD pi default) := by
          intro m hm1 hm2
          rw [unt3 m (Or.inl (by omega))]
          exact hleft2 m hm1 hm2
        -- all of (pi, high] in arr3 is > the pivot key
        have hright2 : ∀ m, pi < m → m ≤ high →
            key (arr1.getD pi default) < key (arr2.getD m default) := by
          intro m hm1 hm2
          rw [unt2 m (Or.inr (by omega))]
          exact pv2 m hm1 hm2
        have hright3 : ∀ m, pi < m → m ≤ high →
            key (arr1.getD pi default) < key (arr3.getD m default) := by
          intro m hm1 hm2
          refine seg_value_transfer
            (fun a => key (arr1.getD pi default) < key a) arr2 arr3 (pi + 1)
            high p3 l3 (fun n hn => unt3 n (Or.inl hn))
            (fun n hn => unt3 n (Or.inr hn)) ?_ m (by omega) hm2 (by omega)
          intro n hn1 hn2 hn3
          exact hright2 n (by omega) hn2
        -- the two recursively sorted segments, read in arr3
        have hsortL : ∀ a b, low ≤ a → a ≤ b → b < pi →
            key (arr3.getD a default) ≤ key (arr3.getD b default) := by
          intro a b ha hab hb
          rw [unt3 a (Or.inl (by omega)), unt3 b (Or.inl (by omega))]
          exact sort2 (by omega) a b ha hab (by omega)
        have hsortR : ∀ a b, pi < a → a ≤ b → b ≤ high →
            key (arr3.getD a default) ≤ key (arr3.getD b default) :=
          fun a b ha hab hb => sort3 (by omega) a b (by omega) hab hb
        rcases Nat.lt_trichotomy k pi with hkpi | hkpi | hkpi
        · exact hsortL j k hj hjk (by omega)
        · subst hkpi
          rcases Nat.lt_or_ge j pi with hjk' | hjk'
          · rw [hpiv3]
            exact hleft3 j hj hjk'
          · have hjpi : j = pi := by omega
            rw [hjpi]
        · rcases Nat.lt_trichotomy j pi with hjpi | hjpi | hjpi
          · exact le_trans (hleft3 j hj hjpi)
              (le_of_lt (hright3 k hkpi hk))
          · rw [hjpi, hpiv3]
            exact le_of_lt (hright3 k hkpi hk)
          · exact hsortR j k hjpi hjk hk
    · rw [quicksortAux_stop key (fuel + 1) arr low high hlh]
      refine ⟨⟨rfl, List.Perm.refl _⟩, fun k _ => rfl, ?_⟩
      intro hfuel j k hj hjk hk
      have : j = k := by omega
      subst this
      exact le_refl _

/-- Claim C10: for every list and every (Nat-valued) key function, the
in-place quicksort helper returns a permutation of its input arranged
in ascending order of key; consequently, after quicksort followed by
reverse — the idiom the region-shrinking solver uses — the element at
index 0 exists and has a maximal key, so the solver's max-priority
selection is total and deterministic. -/
theorem C10_quicksort_sorts {α : Type} [Inhabited α] (key : α → Nat)
    (arr : List α) :
    ((quicksort key arr).Perm arr ∧
     (quicksort key arr).Pairwise (fun a b => key a ≤ key b)) ∧
    (arr ≠ [] →
      ∃ h, ((quicksort key arr).reverse).head? = some h ∧ h ∈ arr ∧
        ∀ x ∈ arr, key x ≤ key h) := by
  obtain ⟨⟨qlen, qperm⟩, qunt, qsort⟩ :=
    quicksortAux_spec key arr.length arr 0 (arr.length - 1)
      (fun h => by omega)
  have hq : quicksort key arr =
      quicksortAux key arr.length arr 0 (arr.length - 1) := rfl
  rw [hq]
  set res := quicksortAux key arr.length arr 0 (arr.length - 1) with hres
  refine ⟨⟨qperm, ?_⟩, ?_⟩
  · rw [List.pairwise_iff_getElem]
    intro i j hi hj hij
    have hlen1 : 1 ≤ arr.length := by omega
    have := qsort (by omega) i j (Nat.zero_le _) (le_of_lt hij) (by omega)
    rwa [List.getD_eq_getElem _ _ hi, List.getD_eq_getElem _ _ hj] at this
  · intro hne
    have hlen0 : 0 < arr.length := List.length_pos.mpr hne
    have hlenr : 0 < res.reverse.length := by
      rw [List.length_reverse, qlen]
      exact hlen0
    have hlast : res.length - 1 < res.length := by omega
    have hd : res.reverse.head? = some (res.reverse.get ⟨0, hlenr⟩) := by
      rw [List.get_eq_getElem, List.head?_eq_getElem?,
        List.getElem?_eq_getElem hlenr]
    have hrev : res.reverse.get ⟨0, hlenr⟩ =
        res.get ⟨res.length - 1, hlast⟩ := by
      rw [List.get_eq_getElem, List.get_eq_getElem, List.getElem_reverse]
      simp
    refine ⟨res.get ⟨res.length - 1, hlast⟩, by rw [hd, hrev], ?_, ?_⟩
    · rw [List.get_eq_getElem]
      exact qperm.subset (List.getElem_mem _)
    · intro x hx
      obtain ⟨n, hn, hval⟩ := List.mem_iff_getElem.mp (qperm.symm.subset hx)
      have hq := qsort (by omega) n (res.length - 1) (Nat.zero_le _)
        (by omega) (by omega)
      rw [List.getD_eq_getElem _ _ hn, List.getD_eq_getElem _ _ hlast] at hq
      rw [hval] at hq
      rw [List.get_eq_getElem]
      exact hq

theorem C10_quicksort_sorts_witness :
    ([2, 1, 3] : List Nat) ≠ [] ∧
    (∃ h, ((quicksort (fun x => x) ([2, 1, 3] : List Nat)).reverse).head? =
        some h ∧ h ∈ ([2, 1, 3] : List Nat) ∧
      ∀ x ∈ ([2, 1, 3] : List Nat), (fun x => x) x ≤ (fun x => x) h) :=
  ⟨by decide, (C10_quicksort_sorts (fun x => x) [2, 1, 3]).2 (by decide)⟩

theorem legal_move_pegCount {g : Graph} (hwf : JumpsWF g)
    {pegs : List Nat} {mv : Nat × Nat × Nat}
    (hmem : mv ∈ legalMovesPegs g pegs) :
    pegCountL (applyMovePegs pegs mv) + 1 = pegCountL pegs := by
  obtain ⟨s, m, e⟩ := mv
  simp only [legalMovesPegs, List.mem_filter, decide_eq_true_eq] at hmem
  obtain ⟨hjump, hs, hm, he⟩ := hmem
  obtain ⟨hsm', hse', hme', -, -, -⟩ := hwf _ hjump
  have hsm : s ≠ m := hsm'
  have hse : s ≠ e := hse'
  have hme : m ≠ e := hme'
  have hsl : s < pegs.length := pegAt_lt_length (by rw [hs]; omega)
  have hml : m < pegs.length := pegAt_lt_length (by rw [hm]; omega)
  have hel : e < pegs.length := pegAt_lt_length (by rw [he]; omega)
  have e1 := sum_set_getD pegs hsl 0
  have e2 := sum_set_getD (pegs.set s 0) (i := m) (by simpa using hml) 0
  have e3 := sum_set_getD ((pegs.set s 0).set m 0) (i := e)
    (by simpa using hel) 1
  rw [getD_set_ne _ hsm] at e2
  rw [getD_set_ne _ hme, getD_set_ne _ hse] at e3
  have hs0 : pegs.getD s 0 = 1 := by
    rw [List.getD_eq_getElem _ _ hsl]
    rw [pegAt, List.getD_eq_getElem _ _ hsl] at hs
    exact hs
  have hm0 : pegs.getD m 0 = 1 := by
    rw [List.getD_eq_getElem _ _ hml]
    rw [pegAt, List.getD_eq_getElem _ _ hml] at hm
    exact hm
  have he0 : pegs.getD e 0 = 0 := by
    rw [List.getD_eq_getElem _ _ hel]
    rw [pegAt, List.getD_eq_getElem _ _ hel] at he
    exact he
  simp only [applyMovePegs, pegCountL]
  omega

theorem quicksort_perm {α : Type} [Inhabited α] (key : α → Nat)
    (arr : List α) : (quicksort key arr).Perm arr :=
  (quicksortAux_spec key arr.length arr 0 (arr.length - 1)
    (fun _ => by omega)).1.2

theorem smallRegionCandidates_legal (g : Graph) (region pegs : List Nat)
    (pr : Nat) (mv : Nat × Nat × Nat)
    (h : (pr, mv) ∈ smallRegionCandidates g region pegs) :
    mv ∈ legalMovesPegs g pegs := by
  simp only [smallRegionCandidates, List.mem_filterMap] at h
  obtain ⟨t, ht, hf⟩ := h
  split_ifs at hf with h1 h2
  · simp only [Option.some_inj, Prod.mk.injEq] at hf
    obtain ⟨-, rfl⟩ := hf
    simp only [legalMovesPegs, List.mem_filter, decide_eq_true_eq]
    exact ⟨ht, h2⟩

theorem crossBoundaryCandidates_legal (g : Graph)
    (left right pegs : List Nat) (pr : Nat) (mv : Nat × Nat × Nat)
    (h : (pr, mv) ∈ crossBoundaryCandidates g left right pegs) :
    mv ∈ legalMovesPegs g pegs := by
  simp only [crossBoundaryCandidates, List.mem_filterMap] at h
  obtain ⟨t, ht, hf⟩ := h
  split_ifs at hf with h1 h2 h3
  · simp only [Option.some_inj, Prod.mk.injEq] at hf
    obtain ⟨-, rfl⟩ := hf
    simp only [legalMovesPegs, List.mem_filter, decide_eq_true_eq]
    exact ⟨ht, h3⟩

theorem movesLegalFrom_append (g : Graph) :
    ∀ (ms1 ms2 : List (Nat × Nat × Nat)) (pegs : List Nat),
      movesLegalFrom g pegs ms1 →
      movesLegalFrom g (applyAllPegs pegs ms1) ms2 →
      movesLegalFrom g pegs (ms1 ++ ms2) := by
  intro ms1
  induction ms1 with
  | nil => intro ms2 pegs _ h2; exact h2
  | cons mv ms ih =>
    intro ms2 pegs h1 h2
    obtain ⟨hmv, hrest⟩ := h1
    exact ⟨hmv, ih ms2 _ hrest h2⟩

theorem applyAllPegs_append :
    ∀ (ms1 ms2 : List (Nat × Nat × Nat)) (pegs : List Nat),
      applyAllPegs pegs (ms1 ++ ms2) =
        applyAllPegs (applyAllPegs pegs ms1) ms2 := by
  intro ms1
  induction ms1 with
  | nil => intro ms2 pegs; rfl
  | cons mv ms ih => intro ms2 pegs; exact ih ms2 _

theorem priorityLoop_spec (g : Graph)
    (cand : List Nat → List (Nat × (Nat × Nat × Nat)))
    (hc : ∀ pegs pr mv, (pr, mv) ∈ cand pegs → mv ∈ legalMovesPegs g pegs) :
    ∀ (fuel : Nat) (pegs : List Nat),
      movesLegalFrom g pegs (priorityLoop cand fuel pegs).1 ∧
      (priorityLoop cand fuel pegs).2 =
        applyAllPegs pegs (priorityLoop cand fuel pegs).1 := by
  intro fuel
  induction fuel with
  | zero => intro pegs; exact ⟨trivial, rfl⟩
  | succ fuel ih =>
    intro pegs
    simp only [priorityLoop]
    cases hh : ((quicksort (fun x => x.1) (cand pegs)).reverse).head? with
    | none => exact ⟨trivial, rfl⟩
    | some best =>
      have hmem : best ∈ cand pegs := by
        have h1 : best ∈ (quicksort (fun x => x.1) (cand pegs)).reverse :=
          List.mem_of_mem_head? hh
        rw [List.mem_reverse] at h1
        exact (quicksort_perm _ _).subset h1
      have hlegal : best.2 ∈ legalMovesPegs g pegs :=
        hc pegs best.1 best.2 (by rwa [← Prod.mk.eta (p := best)] at hmem)
      obtain ⟨ihl, ihp⟩ := ih (applyMovePegs pegs best.2)
      exact ⟨⟨hlegal, ihl⟩, ihp⟩

theorem movesLegalFrom_take_count {g : Graph} (hwf : JumpsWF g) :
    ∀ (ms : List (Nat × Nat × Nat)) (pegs : List Nat),
      movesLegalFrom g pegs ms →
      ∀ i, i < ms.length →
        pegCountL (applyAllPegs pegs (ms.take (i + 1))) + 1 =
          pegCountL (applyAllPegs pegs (ms.take i)) := by
  intro ms
  induction ms with
  | nil => intro pegs _ i hi; simp at hi
  | cons mv rest ih =>
    intro pegs hlegal i hi
    obtain ⟨hmv, hrest⟩ := hlegal
    cases i with
    | zero =>
      simp only [List.take_zero, List.take_succ_cons, applyAllPegs]
      exact legal_move_pegCount hwf hmv
    | succ i =>
      simp only [List.take_succ_cons, applyAllPegs]
      exact ih _ hrest i (by simpa using hi)

theorem insertAscBy_length {α β : Type} [LinearOrder β] (key : α → β)
    (x : α) (l : List α) : (insertAscBy key x l).length = l.length + 1 := by
  induction l with
  | nil => rfl
  | cons y ys ih =>
    simp only [insertAscBy]
    split_ifs <;> simp [ih]

theorem sortAscBy_length {α β : Type} [LinearOrder β] (key : α → β)
    (l : List α) : (sortAscBy key l).length = l.length := by
  induction l with
  | nil => rfl
  | cons y ys ih => simp [sortAscBy, insertAscBy_length, ih]

theorem spatialSplit_length (g : Graph) (region : List Nat) (b : Bool)
    (h3 : ¬ region.length ≤ 3) :
    (spatialSplit g region b).1.length < region.length ∧
    (spatialSplit g region b).2.length < region.length := by
  simp only [spatialSplit, List.length_take, List.length_drop,
    sortAscBy_length]
  omega

theorem solveDC_eq_base (g : Graph) (region pegs : List Nat) (b : Bool)
    (h3 : region.length ≤ 3) :
    solveDC g false region pegs b = solveSmallRegionPriority g region pegs := by
  rw [solveDC]
  simp [h3]

theorem solveDC_eq_rec (g : Graph) (region pegs : List Nat) (b : Bool)
    (h3 : ¬ region.length ≤ 3) :
    solveDC g false region pegs b =
      ((solveDC g false (spatialSplit g region b).1 pegs (!b)).1 ++
        (solveDC g false (spatialSplit g region b).2
          (solveDC g false (spatialSplit g region b).1 pegs (!b)).2 (!b)).1 ++
        (executeCrossBoundaryMovesPriority g (spatialSplit g region b).1
          (spatialSplit g region b).2
          (solveDC g false (spatialSplit g region b).2
            (solveDC g false (spatialSplit g region b).1 pegs (!b)).2
            (!b)).2).1,
       (executeCrossBoundaryMovesPriority g (spatialSplit g region b).1
         (spatialSplit g region b).2
         (solveDC g false (spatialSplit g region b).2
           (solveDC g false (spatialSplit g region b).1 pegs (!b)).2
           (!b)).2).2) := by
  rw [solveDC]
  simp [h3]

theorem solveDC_spec (g : Graph) :
    ∀ (n : Nat) (region pegs : List Nat) (b : Bool), region.length ≤ n →
      movesLegalFrom g pegs (solveDC g false region pegs b).1 ∧
      (solveDC g false region pegs b).2 =
        applyAllPegs pegs (solveDC g false region pegs b).1 := by
  intro n
  induction n with
  | zero =>
    intro region pegs b hn
    rw [solveDC_eq_base g region pegs b (by omega)]
    exact priorityLoop_spec g _
      (fun p pr mv h => smallRegionCandidates_legal g region p pr mv h) _ pegs
  | succ n ih =>
    intro region pegs b hn
    by_cases h3 : region.length ≤ 3
    · rw [solveDC_eq_base g region pegs b h3]
      exact priorityLoop_spec g _
        (fun p pr mv h => smallRegionCandidates_legal g region p pr mv h) _
        pegs
    · obtain ⟨hl1, hl2⟩ := spatialSplit_length g region b h3
      rw [solveDC_eq_rec g region pegs b h3]
      obtain ⟨leg1, peg1⟩ :=
        ih (spatialSplit g region b).1 pegs (!b) (by omega)
      obtain ⟨leg2, peg2⟩ :=
        ih (spatialSplit g region b).2
          (solveDC g false (spatialSplit g region b).1 pegs (!b)).2 (!b)
          (by omega)
      obtain ⟨leg3, peg3⟩ := priorityLoop_spec g _
        (fun p pr mv h => crossBoundaryCandidates_legal g
          (spatialSplit g region b).1 (spatialSplit g region b).2 p pr mv h)
        (pegCountL (solveDC g false (spatialSplit g region b).2
          (solveDC g false (spatialSplit g region b).1 pegs (!b)).2 (!b)).2
          + 1)
        (solveDC g false (spatialSplit g region b).2
          (solveDC g false (spatialSplit g region b).1 pegs (!b)).2 (!b)).2
      simp only [executeCrossBoundaryMovesPriority]
      constructor
      · refine movesLegalFrom_append g _ _ _
          (movesLegalFrom_append g _ _ _ leg1 ?_) ?_
        · rw [← peg1]
          exact leg2
        · rw [applyAllPegs_append, ← peg1, ← peg2]
          exact leg3
      · rw [applyAllPegs_append, applyAllPegs_append, ← peg1, ← peg2]
        exact peg3

/-- Claim C7: for every starting occupancy, the move sequence returned
by the region-shrinking divide and conquer solver (run without
cancellation) is legal move by move against the cumulative state, the
returned occupancy is the fold of the sequence (the solver never undoes
a move), the peg count strictly decreases by one at every move of the
sequence, and a region larger than the base case contributes its
left-half moves, then its right-half moves, then its cross-boundary
moves, in that order. -/
theorem C7_region_solver :
    ∀ (g : Graph) (region pegs : List Nat) (b : Bool), JumpsWF g →
      movesLegalFrom g pegs (solveDC g false region pegs b).1 ∧
      (solveDC g false region pegs b).2 =
        applyAllPegs pegs (solveDC g false region pegs b).1 ∧
      (∀ i, i < (solveDC g false region pegs b).1.length →
        pegCountL (applyAllPegs pegs
            ((solveDC g false region pegs b).1.take (i + 1))) + 1 =
          pegCountL (applyAllPegs pegs
            ((solveDC g false region pegs b).1.take i))) ∧
      (¬ region.length ≤ 3 →
        (solveDC g false region pegs b).1 =
          (solveDC g false (spatialSplit g region b).1 pegs (!b)).1 ++
          (solveDC g false (spatialSplit g region b).2
            (solveDC g false (spatialSplit g region b).1 pegs (!b)).2
            (!b)).1 ++
          (executeCrossBoundaryMovesPriority g (spatialSplit g region b).1
            (spatialSplit g region b).2
            (solveDC g false (spatialSplit g region b).2
              (solveDC g false (spatialSplit g region b).1 pegs (!b)).2
              (!b)).2).1) := by
  intro g region pegs b hwf
  obtain ⟨hleg, hpegs⟩ :=
    solveDC_spec g region.length region pegs b (le_refl _)
  refine ⟨hleg, hpegs, ?_, ?_⟩
  · intro i hi
    exact movesLegalFrom_take_count hwf _ pegs hleg i hi
  · intro h3
    rw [solveDC_eq_rec g region pegs b h3]

theorem C7_region_solver_witness :
    JumpsWF englishGraph ∧
    movesLegalFrom englishGraph (initialState englishGraph).pegs
      (solveDC englishGraph false (List.range 33)
        (initialState englishGraph).pegs true).1 ∧
    (solveDC englishGraph false (List.range 33)
        (initialState englishGraph).pegs true).2 =
      applyAllPegs (initialState englishGraph).pegs
        (solveDC englishGraph false (List.range 33)
          (initialState englishGraph).pegs true).1 :=
  ⟨by decide,
   (C7_region_solver englishGraph (List.range 33)
     (initialState englishGraph).pegs true (by decide)).1,
   (C7_region_solver englishGraph (List.range 33)
     (initialState englishGraph).pegs true (by decide)).2.1⟩

theorem testBit_imp_le {n k : Nat} (h : n.testBit k = true) : 2 ^ k ≤ n := by
  by_contra hc
  rw [Nat.testBit_eq_false_of_lt (Nat.lt_of_not_le hc)] at h
  exact Bool.false_ne_true h

theorem popcount_eq_width {w n : Nat} (h : n < 2 ^ w) :
    popcount n = ((Finset.range w).filter (fun k => n.testBit k)).card := by
  unfold popcount
  congr 1
  apply Finset.ext
  intro k
  simp only [Finset.mem_filter, Finset.mem_range]
  constructor
  · rintro ⟨hk, ht⟩
    have h1 := testBit_imp_le ht
    have h2 := lt_of_le_of_lt h1 h
    exact ⟨(Nat.pow_lt_pow_iff_right (by omega)).mp h2, ht⟩
  · rintro ⟨hk, ht⟩
    have h1 := testBit_imp_le ht
    have h2 : k < 2 ^ k := Nat.lt_two_pow k
    exact ⟨by omega, ht⟩

theorem popcount_lor_disjoint {x y : Nat} (h : x &&& y = 0) :
    popcount (x ||| y) = popcount x + popcount y := by
  have hx : x < 2 ^ (x + y + 1) :=
    lt_of_le_of_lt (by omega) (Nat.lt_two_pow (x + y + 1))
  have hy : y < 2 ^ (x + y + 1) :=
    lt_of_le_of_lt (by omega) (Nat.lt_two_pow (x + y + 1))
  have hxy : x ||| y < 2 ^ (x + y + 1) := Nat.or_lt_two_pow hx hy
  rw [popcount_eq_width hxy, popcount_eq_width hx, popcount_eq_width hy]
  have hdisj : Disjoint
      ((Finset.range (x + y + 1)).filter (fun k => x.testBit k))
      ((Finset.range (x + y + 1)).filter (fun k => y.testBit k)) := by
    rw [Finset.disjoint_left]
    intro a ha hb
    simp only [Finset.mem_filter] at ha hb
    have hand : (x &&& y).testBit a = true := by
      rw [Nat.testBit_land, ha.2, hb.2]
      rfl
    rw [h, Nat.zero_testBit] at hand
    exact Bool.false_ne_true hand
  rw [← Finset.card_union_of_disjoint hdisj]
  congr 1
  apply Finset.ext
  intro k
  simp only [Finset.mem_filter, Finset.mem_union, Finset.mem_range,
    Nat.testBit_lor, Bool.or_eq_true]
  tauto

theorem popcount_two_pow (a : Nat) : popcount (2 ^ a) = 1 := by
  rw [popcount_eq_width (Nat.pow_lt_pow_right (by omega) (by omega) :
    (2 : Nat) ^ a < 2 ^ (a + 1))]
  have hset : (Finset.range (a + 1)).filter
      (fun k => (2 ^ a : Nat).testBit k) = {a} := by
    apply Finset.ext
    intro k
    simp only [Finset.mem_filter, Finset.mem_range, Finset.mem_singleton,
      Nat.testBit_two_pow, decide_eq_true_eq]
    constructor
    · rintro ⟨-, h⟩
      exact h.symm
    · rintro rfl
      exact ⟨by omega, rfl⟩
  rw [hset, Finset.card_singleton]

theorem land_two_pow_ne_zero (bb a : Nat) :
    bb &&& 2 ^ a ≠ 0 ↔ bb.testBit a = true := by
  rw [Nat.and_two_pow]
  cases h : bb.testBit a <;> simp [Nat.pow_pos]

theorem land_two_pow_eq_zero (bb a : Nat) :
    bb &&& 2 ^ a = 0 ↔ bb.testBit a = false := by
  rw [Nat.and_two_pow]
  cases h : bb.testBit a <;> simp [Nat.pow_pos]

theorem ldiff_lor_land (x m : Nat) : Nat.ldiff x m ||| (x &&& m) = x := by
  apply Nat.eq_of_testBit_eq
  intro k
  rw [Nat.testBit_lor, Nat.testBit_ldiff, Nat.testBit_land]
  cases x.testBit k <;> cases m.testBit k <;> rfl

theorem ldiff_land_self_land (x m : Nat) :
    Nat.ldiff x m &&& (x &&& m) = 0 := by
  apply Nat.eq_of_testBit_eq
  intro k
  rw [Nat.testBit_land, Nat.testBit_ldiff, Nat.testBit_land,
    Nat.zero_testBit]
  cases x.testBit k <;> cases m.testBit k <;> rfl

theorem popcount_split (x m : Nat) :
    popcount x = popcount (Nat.ldiff x m) + popcount (x &&& m) := by
  conv_lhs => rw [← ldiff_lor_land x m]
  exact popcount_lor_disjoint (ldiff_land_self_land x m)

theorem popcount_applyMoveBB {bb a b c : Nat}
    (hab : a ≠ b) (hac : a ≠ c) (hbc : b ≠ c)
    (hsa : bb.testBit a = true) (hsb : bb.testBit b = true)
    (hsc : bb.testBit c = false) :
    popcount (applyMoveBB bb (2 ^ a, 2 ^ b, 2 ^ c)) + 1 = popcount bb ∧
    2 ≤ popcount bb := by
  have hdisab : (2 ^ a : Nat) &&& 2 ^ b = 0 := by
    apply Nat.eq_of_testBit_eq
    intro k
    rw [Nat.testBit_land, Nat.zero_testBit, Nat.testBit_two_pow,
      Nat.testBit_two_pow]
    by_cases hka : a = k <;> by_cases hkb : b = k <;>
      simp [hka, hkb]
    omega
  have hbbsm : bb &&& (2 ^ a ||| 2 ^ b) = 2 ^ a ||| 2 ^ b := by
    apply Nat.eq_of_testBit_eq
    intro k
    rw [Nat.testBit_land, Nat.testBit_lor, Nat.testBit_two_pow,
      Nat.testBit_two_pow]
    by_cases hka : a = k
    · subst hka
      simp [hsa]
    · by_cases hkb : b = k
      · subst hkb
        simp [hsb, hka]
      · simp [hka, hkb]
  have hsm2 : popcount ((2 : Nat) ^ a ||| 2 ^ b) = 2 := by
    rw [popcount_lor_disjoint hdisab, popcount_two_pow, popcount_two_pow]
  have hsplit := popcount_split bb (2 ^ a ||| 2 ^ b)
  rw [hbbsm, hsm2] at hsplit
  have hyc : (Nat.ldiff bb (2 ^ a ||| 2 ^ b)).testBit c = false := by
    rw [Nat.testBit_ldiff, hsc]
    rfl
  have hy2c : Nat.ldiff bb (2 ^ a ||| 2 ^ b) &&& 2 ^ c = 0 := by
    apply Nat.eq_of_testBit_eq
    intro k
    rw [Nat.testBit_land, Nat.zero_testBit, Nat.testBit_two_pow]
    by_cases hkc : c = k
    · subst hkc
      simp [hyc]
    · simp [hkc]
  have happ : applyMoveBB bb (2 ^ a, 2 ^ b, 2 ^ c) =
      Nat.ldiff bb (2 ^ a ||| 2 ^ b) ||| 2 ^ c := rfl
  rw [happ, popcount_lor_disjoint hy2c, popcount_two_pow]
  omega

theorem legal_mask_popcount {masks : List (Nat × Nat × Nat)}
    (hwf : MasksWF masks) {bb : Nat} {mv : Nat × Nat × Nat}
    (hm : mv ∈ masks)
    (hleg : bb &&& mv.1 ≠ 0 ∧ bb &&& mv.2.1 ≠ 0 ∧ bb &&& mv.2.2 = 0) :
    popcount (applyMoveBB bb mv) + 1 = popcount bb ∧ 2 ≤ popcount bb := by
  obtain ⟨a, -, b, -, c, -, heq, hab, hac, hbc⟩ := hwf mv hm
  subst heq
  obtain ⟨h1, h2, h3⟩ := hleg
  exact popcount_applyMoveBB hab hac hbc
    ((land_two_pow_ne_zero bb a).mp h1)
    ((land_two_pow_ne_zero bb b).mp h2)
    ((land_two_pow_eq_zero bb c).mp h3)

theorem movesLegalBB_popcount {masks : List (Nat × Nat × Nat)}
    (hwf : MasksWF masks) :
    ∀ (ms : List (Nat × Nat × Nat)) (bb : Nat), movesLegalBB masks bb ms →
      popcount (applyAllBB bb ms) + ms.length = popcount bb := by
  intro ms
  induction ms with
  | nil => intro bb _; rfl
  | cons mv rest ih =>
    intro bb h
    obtain ⟨hm, hleg, hrest⟩ := h
    have hd := legal_mask_popcount hwf hm hleg
    have hih := ih (applyMoveBB bb mv) hrest
    simp only [applyAllBB, List.length_cons]
    omega

theorem movesLegalBB_pos {masks : List (Nat × Nat × Nat)}
    (hwf : MasksWF masks) :
    ∀ (ms : List (Nat × Nat × Nat)) (bb : Nat), movesLegalBB masks bb ms →
      0 < popcount bb → 0 < popcount (applyAllBB bb ms) := by
  intro ms
  induction ms with
  | nil => intro bb _ h; exact h
  | cons mv rest ih =>
    intro bb h hpos
    obtain ⟨hm, hleg, hrest⟩ := h
    have hd := legal_mask_popcount hwf hm hleg
    exact ih _ hrest (by omega)

theorem solveBitGo_invariant {masks : List (Nat × Nat × Nat)}
    (hwf : MasksWF masks) (f : Nat → Nat × List (Nat × Nat × Nat)) (bb : Nat)
    (hbb : popcount bb ≤ 999) :
    ∀ (moves : List (Nat × Nat × Nat)) (best : Nat)
      (path : List (Nat × Nat × Nat)),
      (∀ mv ∈ moves, mv ∈ masks ∧
        (bb &&& mv.1 ≠ 0 ∧ bb &&& mv.2.1 ≠ 0 ∧ bb &&& mv.2.2 = 0)) →
      (∀ mv ∈ moves,
        movesLegalBB masks (applyMoveBB bb mv) (f (applyMoveBB bb mv)).2 ∧
        popcount (applyAllBB (applyMoveBB bb mv) (f (applyMoveBB bb mv)).2) =
          (f (applyMoveBB bb mv)).1) →
      best ≤ 999 →
      ((best = 999 ∧ path = []) ∨
        (movesLegalBB masks bb path ∧
          popcount (applyAllBB bb path) = best)) →
      ((solveBitGo f bb moves best path).1 ≤ best ∧
       (∀ mv ∈ moves, (solveBitGo f bb moves best path).1 ≤
          max 1 (f (applyMoveBB bb mv)).1) ∧
       ((movesLegalBB masks bb (solveBitGo f bb moves best path).2 ∧
         popcount (applyAllBB bb (solveBitGo f bb moves best path).2) =
           (solveBitGo f bb moves best path).1) ∨
        (solveBitGo f bb moves best path = (best, path) ∧ best = 999 ∧
          path = [] ∧ moves = []))) := by
  intro moves
  induction moves with
  | nil =>
    intro best path hlegs hsub hb999 hInv
    refine ⟨le_refl _, fun mv hmv => absurd hmv (List.not_mem_nil mv), ?_⟩
    rcases hInv with ⟨h9, hp⟩ | hR
    · exact Or.inr ⟨rfl, h9, hp, rfl⟩
    · exact Or.inl hR
  | cons mv rest ih =>
    intro best path hlegs hsub hb999 hInv
    obtain ⟨hmm, hmleg⟩ := hlegs mv (List.mem_cons_self mv rest)
    obtain ⟨hsleg, hsach⟩ := hsub mv (List.mem_cons_self mv rest)
    have hdec := legal_mask_popcount hwf hmm hmleg
    have hsub_le : (f (applyMoveBB bb mv)).1 ≤ popcount (applyMoveBB bb mv) := by
      have := movesLegalBB_popcount hwf _ _ hsleg
      omega
    simp only [solveBitGo]
    by_cases hlt : (f (applyMoveBB bb mv)).1 < best
    · rw [if_pos hlt]
      have hInv' : movesLegalBB masks bb (mv :: (f (applyMoveBB bb mv)).2) ∧
          popcount (applyAllBB bb (mv :: (f (applyMoveBB bb mv)).2)) =
            (f (applyMoveBB bb mv)).1 := by
        exact ⟨⟨hmm, hmleg, hsleg⟩, hsach⟩
      by_cases h1 : ((f (applyMoveBB bb mv)).1, mv :: (f (applyMoveBB bb mv)).2).1 = 1
      · rw [if_pos h1]
        refine ⟨by simpa using le_of_lt hlt, ?_, Or.inl hInv'⟩
        intro mv' hmv'
        have h1' : (f (applyMoveBB bb mv)).1 = 1 := h1
        simp only [h1']
        exact le_max_left _ _
      · rw [if_neg h1]
        obtain ⟨ih1, ih2, ih3⟩ := ih ((f (applyMoveBB bb mv)).1)
          ((mv :: (f (applyMoveBB bb mv)).2))
          (fun m hm => hlegs m (List.mem_cons_of_mem mv hm))
          (fun m hm => hsub m (List.mem_cons_of_mem mv hm))
          (by omega) (Or.inr hInv')
        refine ⟨le_trans ih1 (le_of_lt hlt), ?_, ?_⟩
        · intro mv' hmv'
          rcases List.mem_cons.mp hmv' with rfl | hmv'
          · exact le_trans ih1 (le_max_right _ _)
          · exact ih2 mv' hmv'
        · rcases ih3 with hL | ⟨-, -, hpne, -⟩
          · exact Or.inl hL
          · exact absurd hpne (List.cons_ne_nil _ _)
    · rw [if_neg hlt]
      have hInvR : movesLegalBB masks bb path ∧
          popcount (applyAllBB bb path) = best := by
        rcases hInv with ⟨h9, -⟩ | hR
        · exfalso
          omega
        · exact hR
      by_cases h1 : ((best, path)).1 = 1
      · rw [if_pos h1]
        have h1' : best = 1 := h1
        refine ⟨le_refl _, ?_, Or.inl hInvR⟩
        intro mv' hmv'
        simp only [h1']
        exact le_max_left _ _
      · rw [if_neg h1]
        obtain ⟨ih1, ih2, ih3⟩ := ih best path
          (fun m hm => hlegs m (List.mem_cons_of_mem mv hm))
          (fun m hm => hsub m (List.mem_cons_of_mem mv hm))
          hb999 (Or.inr hInvR)
        refine ⟨ih1, ?_, ?_⟩
        · intro mv' hmv'
          rcases List.mem_cons.mp hmv' with rfl | hmv'
          · exact le_trans ih1 (le_trans (not_lt.mp hlt)
              (le_max_right _ _))
          · exact ih2 mv' hmv'
        · rcases ih3 with hL | ⟨-, h9, -, -⟩
          · exact Or.inl hL
          · exfalso
            omega

theorem popcount_eq_zero {bb : Nat} (h : popcount bb = 0) : bb = 0 := by
  by_contra hne
  obtain ⟨i, hi, -⟩ := Nat.exists_most_significant_bit hne
  have h1 := testBit_imp_le hi
  have h2 : i < 2 ^ i := Nat.lt_two_pow i
  have h3 : 0 < popcount bb := by
    unfold popcount
    refine Finset.card_pos.mpr ⟨i, ?_⟩
    simp only [Finset.mem_filter, Finset.mem_range]
    exact ⟨by omega, hi⟩
  omega

theorem solveBitAux_correct {masks : List (Nat × Nat × Nat)}
    (hwf : MasksWF masks) :
    ∀ (fuel bb : Nat), popcount bb ≤ fuel → popcount bb ≤ 999 →
      movesLegalBB masks bb (solveBitAux masks false fuel bb).2 ∧
      popcount (applyAllBB bb (solveBitAux masks false fuel bb).2) =
        (solveBitAux masks false fuel bb).1 ∧
      (solveBitAux masks false fuel bb).1 ≤ popcount bb := by
  intro fuel
  induction fuel with
  | zero => intro bb h1 h2; exact ⟨trivial, rfl, le_refl _⟩
  | succ fuel ih =>
    intro bb h1 h2
    simp only [solveBitAux, Bool.false_eq_true, if_false]
    cases hmv : (masks.filter (fun mv =>
        bb &&& mv.1 ≠ 0 ∧ bb &&& mv.2.1 ≠ 0 ∧ bb &&& mv.2.2 = 0)).isEmpty with
    | true => exact ⟨trivial, rfl, le_refl _⟩
    | false =>
      rw [if_neg (by simp)]
      have hlegs : ∀ mv ∈ masks.filter (fun mv =>
          bb &&& mv.1 ≠ 0 ∧ bb &&& mv.2.1 ≠ 0 ∧ bb &&& mv.2.2 = 0),
          mv ∈ masks ∧
          (bb &&& mv.1 ≠ 0 ∧ bb &&& mv.2.1 ≠ 0 ∧ bb &&& mv.2.2 = 0) := by
        intro mv hm
        rw [List.mem_filter, decide_eq_true_eq] at hm
        exact hm
      have hsub : ∀ mv ∈ masks.filter (fun mv =>
          bb &&& mv.1 ≠ 0 ∧ bb &&& mv.2.1 ≠ 0 ∧ bb &&& mv.2.2 = 0),
          movesLegalBB masks (applyMoveBB bb mv)
            (solveBitAux masks false fuel (applyMoveBB bb mv)).2 ∧
          popcount (applyAllBB (applyMoveBB bb mv)
              (solveBitAux masks false fuel (applyMoveBB bb mv)).2) =
            (solveBitAux masks false fuel (applyMoveBB bb mv)).1 := by
        intro mv hm
        obtain ⟨hmm, hml⟩ := hlegs mv hm
        have hd := legal_mask_popcount hwf hmm hml
        obtain ⟨a1, a2, -⟩ := ih (applyMoveBB bb mv) (by omega) (by omega)
        exact ⟨a1, a2⟩
      obtain ⟨g1, g2, g3⟩ := solveBitGo_invariant hwf
        (solveBitAux masks false fuel) bb h2 _ 999 [] hlegs hsub
        (le_refl _) (Or.inl ⟨rfl, rfl⟩)
      rcases g3 with ⟨hL1, hL2⟩ | ⟨-, -, -, hml⟩
      · refine ⟨hL1, hL2, ?_⟩
        have := movesLegalBB_popcount hwf _ _ hL1
        omega
      · rw [hml] at hmv
        simp at hmv

theorem solveBitAux_min {masks : List (Nat × Nat × Nat)}
    (hwf : MasksWF masks) :
    ∀ (fuel bb : Nat), popcount bb ≤ fuel → popcount bb ≤ 999 →
      ∀ ms, movesLegalBB masks bb ms →
        (solveBitAux masks false fuel bb).1 ≤
          popcount (applyAllBB bb ms) := by
  intro fuel
  induction fuel with
  | zero =>
    intro bb h1 h2 ms hms
    have hbb0 : bb = 0 := popcount_eq_zero (by omega)
    subst hbb0
    cases ms with
    | nil => exact le_refl _
    | cons mv rest =>
      obtain ⟨-, ⟨hleg1, -, -⟩, -⟩ := hms
      exact absurd (Nat.zero_and mv.1) hleg1
  | succ fuel ih =>
    intro bb h1 h2 ms hms
    simp only [solveBitAux, Bool.false_eq_true, if_false]
    cases hmv : (masks.filter (fun mv =>
        bb &&& mv.1 ≠ 0 ∧ bb &&& mv.2.1 ≠ 0 ∧ bb &&& mv.2.2 = 0)).isEmpty with
    | true =>
      cases ms with
      | nil => exact le_refl _
      | cons mv rest =>
        obtain ⟨hmm, hml, -⟩ := hms
        exfalso
        have : mv ∈ masks.filter (fun mv =>
            bb &&& mv.1 ≠ 0 ∧ bb &&& mv.2.1 ≠ 0 ∧ bb &&& mv.2.2 = 0) := by
          rw [List.mem_filter, decide_eq_true_eq]
          exact ⟨hmm, hml⟩
        rw [List.isEmpty_iff] at hmv
        rw [hmv] at this
        exact List.not_mem_nil mv this
    | false =>
      rw [if_neg (by simp)]
      have hlegs : ∀ m ∈ masks.filter (fun mv =>
          bb &&& mv.1 ≠ 0 ∧ bb &&& mv.2.1 ≠ 0 ∧ bb &&& mv.2.2 = 0),
          m ∈ masks ∧
          (bb &&& m.1 ≠ 0 ∧ bb &&& m.2.1 ≠ 0 ∧ bb &&& m.2.2 = 0) := by
        intro m hm
        rw [List.mem_filter, decide_eq_true_eq] at hm
        exact hm
      have hsub : ∀ m ∈ masks.filter (fun mv =>
          bb &&& mv.1 ≠ 0 ∧ bb &&& mv.2.1 ≠ 0 ∧ bb &&& mv.2.2 = 0),
          movesLegalBB masks (applyMoveBB bb m)
            (solveBitAux masks false fuel (applyMoveBB bb m)).2 ∧
          popcount (applyAllBB (applyMoveBB bb m)
              (solveBitAux masks false fuel (applyMoveBB bb m)).2) =
            (solveBitAux masks false fuel (applyMoveBB bb m)).1 := by
        intro m hm
        obtain ⟨hmm, hml⟩ := hlegs m hm
        have hd := legal_mask_popcount hwf hmm hml
        obtain ⟨a1, a2, -⟩ := solveBitAux_correct hwf fuel (applyMoveBB bb m)
          (by omega) (by omega)
        exact ⟨a1, a2⟩
      obtain ⟨g1, g2, g3⟩ := solveBitGo_invariant hwf
        (solveBitAux masks false fuel) bb h2 _ 999 [] hlegs hsub
        (le_refl _) (Or.inl ⟨rfl, rfl⟩)
      cases ms with
      | nil =>
        simp only [applyAllBB]
        rcases g3 with ⟨hL1, hL2⟩ | ⟨-, -, -, hml⟩
        · have := movesLegalBB_popcount hwf _ _ hL1
          omega
        · rw [hml] at hmv
          simp at hmv
      | cons mv rest =>
        obtain ⟨hmm, hml, hrest⟩ := hms
        have hmfilter : mv ∈ masks.filter (fun mv =>
            bb &&& mv.1 ≠ 0 ∧ bb &&& mv.2.1 ≠ 0 ∧ bb &&& mv.2.2 = 0) := by
          rw [List.mem_filter, decide_eq_true_eq]
          exact ⟨hmm, hml⟩
        have hd := legal_mask_popcount hwf hmm hml
        have hmin := ih (applyMoveBB bb mv) (by omega) (by omega) rest hrest
        obtain ⟨a1, a2, -⟩ := solveBitAux_correct hwf fuel (applyMoveBB bb mv)
          (by omega) (by omega)
        have hpos : 1 ≤ (solveBitAux masks false fuel (applyMoveBB bb mv)).1 := by
          have := movesLegalBB_pos hwf _ _ a1 (by omega)
          omega
        have hgo := g2 mv hmfilter
        rw [max_eq_right hpos] at hgo
        exact le_trans hgo hmin

/-- Claim C3: with the cancellation flag never set, the exhaustive
bitboard solver returns `(popcount bb, [])` when no move is legal; in
general it returns a legal move sequence whose final board attains the
returned pegs-remaining value, and that value is minimal over every
sequence of legal moves from the bitboard — so the early exit on a
1-peg outcome never changes the returned minimum; and the best-candidate
update is strict, so a sibling move that merely ties the current best
(with the best not 1) leaves the retained first candidate unchanged. -/
theorem C3_bitboard_solver (masks : List (Nat × Nat × Nat)) (bb : Nat)
    (hwf : MasksWF masks) (hbb : popcount bb ≤ 999) :
    ((masks.filter (fun mv => bb &&& mv.1 ≠ 0 ∧ bb &&& mv.2.1 ≠ 0 ∧
        bb &&& mv.2.2 = 0)).isEmpty = true →
      solveBit masks false bb = (popcount bb, [])) ∧
    movesLegalBB masks bb (solveBit masks false bb).2 ∧
    popcount (applyAllBB bb (solveBit masks false bb).2) =
      (solveBit masks false bb).1 ∧
    (∀ ms, movesLegalBB masks bb ms →
      (solveBit masks false bb).1 ≤ popcount (applyAllBB bb ms)) ∧
    (∀ (f : Nat → Nat × List (Nat × Nat × Nat)) (bb2 best : Nat)
        (path : List (Nat × Nat × Nat)) (mv : Nat × Nat × Nat)
        (rest : List (Nat × Nat × Nat)),
      best ≤ (f (applyMoveBB bb2 mv)).1 → best ≠ 1 →
      solveBitGo f bb2 (mv :: rest) best path =
        solveBitGo f bb2 rest best path) := by
  obtain ⟨c1, c2, c3⟩ :=
    solveBitAux_correct hwf (popcount bb) bb (le_refl _) hbb
  refine ⟨?_, c1, c2, ?_, ?_⟩
  · intro hempty
    show solveBitAux masks false (popcount bb) bb = (popcount bb, [])
    cases hp : popcount bb with
    | zero =>
      rw [show solveBitAux masks false 0 bb = (popcount bb, []) from rfl, hp]
    | succ n =>
      simp only [solveBitAux, Bool.false_eq_true, if_false]
      rw [if_pos (by rw [hempty]), hp]
  · intro ms hms
    exact solveBitAux_min hwf (popcount bb) bb (le_refl _) hbb ms hms
  · intro f bb2 best path mv rest hle h1
    simp only [solveBitGo, if_neg (not_lt.mpr hle)]
    rw [if_neg h1]

theorem C3_bitboard_solver_witness :
    MasksWF [(1, 2, 4)] ∧ popcount 3 ≤ 999 ∧
    movesLegalBB [(1, 2, 4)] 3 (solveBit [(1, 2, 4)] false 3).2 ∧
    popcount (applyAllBB 3 (solveBit [(1, 2, 4)] false 3).2) =
      (solveBit [(1, 2, 4)] false 3).1 :=
  ⟨by decide, by decide,
   (C3_bitboard_solver [(1, 2, 4)] 3 (by decide) (by decide)).2.1,
   (C3_bitboard_solver [(1, 2, 4)] 3 (by decide) (by decide)).2.2.1⟩

/-- Claim C8: running either solver entry point (the region-shrinking
search or the bitboard search) leaves the externally visible game
state untouched — after the call the game's occupancy list and history
stack are identical to what they were at search start, because the
search works only on a copied peg list or a derived bitboard. -/
theorem C8_solvers_preserve_state :
    ∀ (g : Graph) (game : GameState) (cancel : Bool),
      ((regionThreadedSearch g game cancel).2.pegs = game.pegs ∧
       (regionThreadedSearch g game cancel).2.history = game.history) ∧
      ((bitboardThreadedSolve g game cancel).2.pegs = game.pegs ∧
       (bitboardThreadedSolve g game cancel).2.history = game.history) := by
  intro g game cancel
  exact ⟨⟨rfl, rfl⟩, ⟨rfl, rfl⟩⟩

end PegSolitaire
